import Mathlib

/-!
Shallow embedding of the SpecForge draft-model attention subsystem
(src/specforge/modeling/draft/qwen3_eagle.py) and of the JSONL sampler
(src/scripts/jsonl_sample.py), together with theorems settling the
specification's claims against the code.

Numeric idealization: tensor entries are rationals.  Transcendental numeric
kernels whose internals do not bear on the claims appear as abstract
parameters of the embedding: the float32 exp inside softmax, the rsqrt
inside RMSNorm, head_dim ** 0.5, and the cos/sin of the rotary angles.
Dtype casts (.to(torch.float32), .to(input_dtype)) are the identity.

All attention tensors are modelled at one batch element: every operation of
Qwen3Attention.forward acts pointwise in the batch dimension (the additive
mask broadcasts over heads but not over batch), so fixing one batch element
loses no generality.  Shapes are tracked explicitly, and an operation whose
operand shapes torch would reject returns none.
-/

namespace SpecForge

/-- Slice of a rank-4 torch tensor (batch, head, seq, dim) at one batch
index: indexed by head, row and column, with explicit row and column
counts.  The head count is left open (entries are total functions); torch
never fails on the head dimension in the modelled code because masks
broadcast over it.  Entries outside the tracked shape are junk and are not
read by well-shaped operations. -/
structure Ten3 where
  rows : ℕ
  cols : ℕ
  entry : ℕ → ℕ → ℕ → ℚ

instance : Inhabited Ten3 := ⟨⟨0, 0, fun _ _ _ => 0⟩⟩

/-- Like `Ten3` but with entries in `WithBot ℚ`: ⊥ models the -inf entries
of additive attention masks (float exp maps -inf to 0, which `expBot`
reproduces). -/
structure MTen3 where
  rows : ℕ
  cols : ℕ
  entry : ℕ → ℕ → ℕ → WithBot ℚ

/-- A rank-3 activation [batch, seq, features] at one batch index: one
feature row per token. -/
structure TokMat where
  len : ℕ
  row : ℕ → ℕ → ℚ

/-- Result size when torch broadcasts two trailing dimension sizes. -/
def bdim (a b : ℕ) : ℕ := if a = 1 then b else a

/-- Index into a dimension of size `a` that may have been broadcast. -/
def bidx (a i : ℕ) : ℕ := if a = 1 then 0 else i

/-- torch broadcast compatibility of two dimension sizes: equal, or one of
them is 1. -/
def bok (a b : ℕ) : Prop := a = b ∨ a = 1 ∨ b = 1

instance (a b : ℕ) : Decidable (bok a b) := by unfold bok; infer_instance

/-- rotate_half (qwen3_eagle.py:36-39): x1 = x[..., : d//2],
x2 = x[..., d//2 :], result = cat(-x2, x1). -/
def rotateHalf (d : ℕ) (x : ℕ → ℚ) : ℕ → ℚ := fun j =>
  if j < d - d / 2 then -x (d / 2 + j) else x (j - (d - d / 2))

/-- apply_rotary_pos_emb (qwen3_eagle.py:42-53) on one head vector, given
the cos/sin table row for this position (the unsqueeze broadcasts the same
table row over heads, which taking `c`, `s` head-independent reproduces). -/
def applyRot (d : ℕ) (c s : ℕ → ℚ) (x : ℕ → ℚ) : ℕ → ℚ := fun j =>
  x j * c j + rotateHalf d x j * s j

/-- repeat_kv (qwen3_eagle.py:23-33): after expand+reshape, attention head
h reads key/value head h / nRep.  For nRep = 1 the reshape is the identity,
which this function also is. -/
def repeatKV (x : Ten3) (nRep : ℕ) : Ten3 :=
  ⟨x.rows, x.cols, fun h => x.entry (h / nRep)⟩

/-- Parameters of Qwen3Attention, with the learned per-token maps and the
transcendental kernels abstracted:
 - `d` is head_dim, `G` is num_key_value_groups;
 - `sqrtd` models head_dim ** 0.5;
 - `E` models the float32 exp inside nn.functional.softmax;
 - `qp`, `kp`, `vp` model q_proj/k_proj/v_proj followed by view+transpose:
   a per-token map from the fused feature row to (head, dim) entries;
 - `qn`, `kn` model the per-head-vector RMSNorms q_norm/k_norm;
 - `cosT`/`sinT` model the cos/sin tables of Qwen3RotaryEmbedding.forward
   as functions of the absolute integer position (the table is a pure
   function of the position ids);
 - `op` models o_proj as a per-token map on the head-concatenated output. -/
structure AttnCfg where
  d : ℕ
  G : ℕ
  sqrtd : ℚ
  E : ℚ → ℚ
  qp : (ℕ → ℚ) → ℕ → ℕ → ℚ
  kp : (ℕ → ℚ) → ℕ → ℕ → ℚ
  vp : (ℕ → ℚ) → ℕ → ℕ → ℚ
  qn : (ℕ → ℚ) → ℕ → ℚ
  kn : (ℕ → ℚ) → ℕ → ℚ
  cosT : ℕ → ℕ → ℚ
  sinT : ℕ → ℕ → ℚ
  op : (ℕ → ℚ) → ℕ → ℚ

/-- Query states after q_proj, view/transpose, q_norm and rotary at
position pid i + off (qwen3_eagle.py:159-192; off is 0 in no-cache mode
and len(cache_hidden[0]) in cache mode). -/
def qTen (cfg : AttnCfg) (hid : TokMat) (pid : ℕ → ℕ) (off : ℕ) : Ten3 :=
  ⟨hid.len, cfg.d, fun h i j =>
    applyRot cfg.d (cfg.cosT (pid i + off)) (cfg.sinT (pid i + off))
      (cfg.qn (cfg.qp (hid.row i) h)) j⟩

/-- Key states after k_proj, view/transpose, k_norm and rotary, still at
key/value head granularity (before repeat_kv). -/
def kTen (cfg : AttnCfg) (hid : TokMat) (pid : ℕ → ℕ) (off : ℕ) : Ten3 :=
  ⟨hid.len, cfg.d, fun h i j =>
    applyRot cfg.d (cfg.cosT (pid i + off)) (cfg.sinT (pid i + off))
      (cfg.kn (cfg.kp (hid.row i) h)) j⟩

/-- Value states after v_proj and view/transpose (no norm, no rotary). -/
def vTen (cfg : AttnCfg) (hid : TokMat) : Ten3 :=
  ⟨hid.len, cfg.d, fun h i j => cfg.vp (hid.row i) h j⟩

/-- exp lifted to additive-mask entries: float exp maps -inf (⊥) to 0. -/
def expBot (E : ℚ → ℚ) (x : WithBot ℚ) : ℚ := WithBot.recBotCoe 0 E x

/-- nn.functional.softmax over the last axis (float32 elevation and the
cast back to input dtype are the identity in this ℚ idealization). -/
def softmaxT (E : ℚ → ℚ) (x : MTen3) : Ten3 :=
  ⟨x.rows, x.cols, fun h i j =>
    expBot E (x.entry h i j) / ∑ t ∈ Finset.range x.cols, expBot E (x.entry h i t)⟩

/-- torch.matmul(q, k.transpose(2, 3)) / sqrtd (qwen3_eagle.py:206): the
inner dimensions must agree; heads are pointwise. -/
def matmulT (sq : ℚ) (x y : Ten3) : Option MTen3 :=
  if x.cols = y.cols then
    some ⟨x.rows, y.rows, fun h i j =>
      (((∑ t ∈ Finset.range x.cols, x.entry h i t * y.entry h j t) / sq : ℚ) : WithBot ℚ)⟩
  else none

/-- attn_weights + attention_mask (qwen3_eagle.py:209) with torch trailing
broadcast semantics on the last two dimensions. -/
def addBM (x y : MTen3) : Option MTen3 :=
  if bok x.rows y.rows ∧ bok x.cols y.cols then
    some ⟨bdim x.rows y.rows, bdim x.cols y.cols, fun h i j =>
      x.entry h (bidx x.rows i) (bidx x.cols j) + y.entry h (bidx y.rows i) (bidx y.cols j)⟩
  else none

/-- (qi * kiq).sum(-1) / sqrtd followed by [..., None]
(qwen3_eagle.py:216-217): elementwise product with trailing broadcast,
summed over the last axis, leaving a length-1 trailing axis. -/
def scalarCol (sq : ℚ) (q k : Ten3) : Option MTen3 :=
  if bok q.rows k.rows ∧ bok q.cols k.cols then
    some ⟨bdim q.rows k.rows, 1, fun h i _ =>
      (((∑ t ∈ Finset.range (bdim q.cols k.cols),
          q.entry h (bidx q.rows i) (bidx q.cols t) * k.entry h (bidx k.rows i) (bidx k.cols t)) / sq
        : ℚ) : WithBot ℚ)⟩
  else none

/-- torch.cat along the last axis (qwen3_eagle.py:217): the other
dimensions must agree. -/
def catCols (x y : MTen3) : Option MTen3 :=
  if x.rows = y.rows then
    some ⟨x.rows, x.cols + y.cols, fun h i j =>
      if j < x.cols then x.entry h i j else y.entry h i (j - x.cols)⟩
  else none

/-- attn_weights[..., :q_len] (qwen3_eagle.py:220). -/
def sliceCols (x : Ten3) (n : ℕ) : Ten3 := ⟨x.rows, min x.cols n, x.entry⟩

/-- torch.matmul of (…, r, c) with (…, c, d) (qwen3_eagle.py:222): inner
dimensions must be equal (matmul does not broadcast them). -/
def matmulStd (x y : Ten3) : Option Ten3 :=
  if x.cols = y.rows then
    some ⟨x.rows, y.cols, fun h i j =>
      ∑ t ∈ Finset.range x.cols, x.entry h i t * y.entry h t j⟩
  else none

/-- Elementwise product with torch trailing broadcast
(qwen3_eagle.py:227, attn_weightsi[..., None] * vi). -/
def mulBr (x y : Ten3) : Option Ten3 :=
  if bok x.rows y.rows ∧ bok x.cols y.cols then
    some ⟨bdim x.rows y.rows, bdim x.cols y.cols, fun h i j =>
      x.entry h (bidx x.rows i) (bidx x.cols j) * y.entry h (bidx y.rows i) (bidx y.cols j)⟩
  else none

/-- Elementwise sum with torch trailing broadcast (qwen3_eagle.py:228). -/
def addBr (x y : Ten3) : Option Ten3 :=
  if bok x.rows y.rows ∧ bok x.cols y.cols then
    some ⟨bdim x.rows y.rows, bdim x.cols y.cols, fun h i j =>
      x.entry h (bidx x.rows i) (bidx x.cols j) + y.entry h (bidx y.rows i) (bidx y.cols j)⟩
  else none

/-- The weight-accumulation loop of cache mode (qwen3_eagle.py:211-217):
for each cached step beyond step 0, append one scalar weight column. -/
def accWeights (sq : ℚ) (q : Ten3) : MTen3 → List Ten3 → Option MTen3
  | acc, [] => some acc
  | acc, k :: rest => do
      let wi ← scalarCol sq q k
      let acc2 ← catCols acc wi
      accWeights sq q acc2 rest

/-- The output-accumulation loop of cache mode (qwen3_eagle.py:224-228):
for cached step i, add softmax column q_len + i - 1 times value i. -/
def accOut (sm : Ten3) (qlen : ℕ) : Ten3 → ℕ → List Ten3 → Option Ten3
  | acc, _, [] => some acc
  | acc, i, v :: rest => do
      let wi : Ten3 := ⟨sm.rows, 1, fun h r _ => sm.entry h r (qlen + i - 1)⟩
      let oi ← mulBr wi v
      let acc2 ← addBr acc oi
      accOut sm qlen acc2 (i + 1) rest

/-- Pre-softmax attention weights of cache mode (qwen3_eagle.py:203-217):
the masked step-0 block followed by one scalar column per later step. -/
def cacheAttnWeights (cfg : AttnCfg) (q : Ten3) (mask : MTen3) (ks : List Ten3) : Option MTen3 := do
  let w0 ← matmulT cfg.sqrtd q ks.headI
  let wm ← addBM w0 mask
  accWeights cfg.sqrtd q wm ks.tail

/-- Attention output of cache mode from the softmaxed weights
(qwen3_eagle.py:220-228). -/
def cacheAttnOut (qlen : ℕ) (sm : Ten3) (vs : List Ten3) : Option Ten3 := do
  let o0 ← matmulStd (sliceCols sm qlen) vs.headI
  accOut sm qlen o0 1 vs.tail

/-- transpose(1, 2) + reshape to [.., q_len, heads*head_dim] + o_proj
(qwen3_eagle.py:230-232): output feature g of token i reads head g / d,
dim g % d. -/
def reshapeOut (cfg : AttnCfg) (qlen : ℕ) (o : Ten3) : TokMat :=
  ⟨qlen, fun i f => cfg.op (fun g => o.entry (g / cfg.d) i (g % cfg.d)) f⟩

/-- Cache-accumulation branch of Qwen3Attention.forward
(qwen3_eagle.py:188-233).  The rotary offset is len(cache_hidden[0]) at
entry; the rotated, repeat_kv-expanded key/value of this step is appended
before the weights are computed, so the cache mutation happens even when a
later shape error aborts the output (as in the Python original, where the
lists are rebound before the failing op runs).  Returns the mutated cache
and the optional output. -/
def forwardCache (cfg : AttnCfg) (hid : TokMat) (mask : MTen3) (pid : ℕ → ℕ)
    (cache : List Ten3 × List Ten3) : (List Ten3 × List Ten3) × Option TokMat :=
  let off := cache.1.length
  let newK := cache.1 ++ [repeatKV (kTen cfg hid pid off) cfg.G]
  let newV := cache.2 ++ [repeatKV (vTen cfg hid) cfg.G]
  ((newK, newV),
    do
      let w ← cacheAttnWeights cfg (qTen cfg hid pid off) mask newK
      let o ← cacheAttnOut hid.len (softmaxT cfg.E w) newV
      pure (reshapeOut cfg hid.len o))

/-- No-cache branch of Qwen3Attention.forward (qwen3_eagle.py:171-187):
rotary at the raw position ids (offset 0), repeat_kv, then
scaled_dot_product_attention with the provided additive mask, whose
semantics is softmax(q kᵀ / sqrt(d) + mask) v. -/
def forwardNoCache (cfg : AttnCfg) (hid : TokMat) (mask : MTen3) (pid : ℕ → ℕ) :
    Option TokMat := do
  let w0 ← matmulT cfg.sqrtd (qTen cfg hid pid 0) (repeatKV (kTen cfg hid pid 0) cfg.G)
  let wm ← addBM w0 mask
  let o ← matmulStd (softmaxT cfg.E wm) (repeatKV (vTen cfg hid) cfg.G)
  pure (reshapeOut cfg hid.len o)

/-- Qwen3Attention.forward (qwen3_eagle.py:147-233), dispatching on
cache_hidden being null, returning the possibly-mutated cache and the
optional output. -/
def qwen3AttentionForward (cfg : AttnCfg) (hid : TokMat)
    (cacheOpt : Option (List Ten3 × List Ten3)) (mask : MTen3) (pid : ℕ → ℕ) :
    Option (List Ten3 × List Ten3) × Option TokMat :=
  match cacheOpt with
  | none => (none, forwardNoCache cfg hid mask pid)
  | some c => (some (forwardCache cfg hid mask pid c).1, (forwardCache cfg hid mask pid c).2)

/-! ### Rollouts of the cache-accumulation mode (claims C1 and C3) -/

/-- The incremental cache after n sequential cache-mode calls starting from
the fresh empty pair, with per-step inputs given by the three streams. -/
def rolloutCacheGen (cfg : AttnCfg) (hids : ℕ → TokMat) (masks : ℕ → MTen3)
    (pids : ℕ → ℕ → ℕ) : ℕ → List Ten3 × List Ten3
  | 0 => ([], [])
  | n + 1 =>
      (forwardCache cfg (hids n) (masks n) (pids n) (rolloutCacheGen cfg hids masks pids n)).1

/-- One-token hidden input for step t of a single-token rollout: the fused
feature row of token t. -/
def stepHid (h : ℕ → ℕ → ℚ) (t : ℕ) : TokMat := ⟨1, fun _ => h t⟩

/-- The 1×1 additive causal mask of a single-token step (the causal mask
of a length-1 sequence is [[0]]). -/
def maskOne : MTen3 := ⟨1, 1, fun _ _ _ => (0 : WithBot ℚ)⟩

/-- The N×N additive causal mask: 0 at or below the diagonal, -inf above. -/
def causalMask (N : ℕ) : MTen3 :=
  ⟨N, N, fun _ i j => if j ≤ i then (0 : WithBot ℚ) else (⊥ : WithBot ℚ)⟩

/-- Cache state before step t of a single-token cache-accumulation rollout
over tokens h 0, h 1, …: each step passes position_ids = [0] (as the draft
model does for a one-token call) and the 1×1 causal mask. -/
def rolloutCache (cfg : AttnCfg) (h : ℕ → ℕ → ℚ) (t : ℕ) : List Ten3 × List Ten3 :=
  rolloutCacheGen cfg (stepHid h) (fun _ => maskOne) (fun _ _ => 0) t

/-- Output of step t of the single-token cache-accumulation rollout. -/
def rolloutStepOut (cfg : AttnCfg) (h : ℕ → ℕ → ℚ) (t : ℕ) : Option TokMat :=
  (forwardCache cfg (stepHid h t) maskOne (fun _ => 0) (rolloutCache cfg h t)).2

/-- The N-token input whose row t is token t's fused feature row. -/
def fullHid (h : ℕ → ℕ → ℚ) (N : ℕ) : TokMat := ⟨N, h⟩

/-- The key entry the single-token rollout appends at step t: token t's
key, rotated at absolute position t and grouped-query expanded. -/
def kStepC1 (cfg : AttnCfg) (h : ℕ → ℕ → ℚ) (t : ℕ) : Ten3 :=
  repeatKV (kTen cfg (stepHid h t) (fun _ => 0) t) cfg.G

/-- The value entry the single-token rollout appends at step t. -/
def vStepC1 (cfg : AttnCfg) (h : ℕ → ℕ → ℚ) (t : ℕ) : Ten3 :=
  repeatKV (vTen cfg (stepHid h t)) cfg.G

/-- One no-cache call over the whole N-token sequence with positions
0, …, N-1 and the equivalent N×N additive causal mask. -/
def fullRunOut (cfg : AttnCfg) (h : ℕ → ℕ → ℚ) (N : ℕ) : Option TokMat :=
  forwardNoCache cfg (fullHid h N) (causalMask N) (fun i => i)

/-! ### The cache-mode weight assembly as the specification words it (C2) -/

/-- The cache-mode attention output as claim C2 words it, written directly
as a total formula: with K/V the cache after appending (depth L), the
weight row of a query position is the masked scaled q·k₀ᵀ block
concatenated with one scaled per-position scalar q·kᵢ dot product per
later step, one softmax is applied over the concatenation, and the output
is the first q_len softmax columns matmul v₀ plus the per-step scalar
weights times vᵢ; finally heads are re-concatenated and o_proj applied. -/
def specCacheAttn (cfg : AttnCfg) (hid : TokMat) (mask : MTen3) (pid : ℕ → ℕ)
    (cache : List Ten3 × List Ten3) : TokMat :=
  let off := cache.1.length
  let q := qTen cfg hid pid off
  let K := cache.1 ++ [repeatKV (kTen cfg hid pid off) cfg.G]
  let V := cache.2 ++ [repeatKV (vTen cfg hid) cfg.G]
  let L := K.length
  let qlen := hid.len
  let logits : MTen3 :=
    ⟨qlen, qlen + (L - 1), fun h i c =>
      if c < qlen then
        (((∑ t ∈ Finset.range cfg.d, q.entry h i t * K.headI.entry h c t) / cfg.sqrtd : ℚ)
          : WithBot ℚ) + mask.entry h i c
      else
        (((∑ t ∈ Finset.range cfg.d,
            q.entry h i t * (K.getD (c - qlen + 1) default).entry h i t) / cfg.sqrtd : ℚ)
          : WithBot ℚ)⟩
  let sm := softmaxT cfg.E logits
  let o : Ten3 :=
    ⟨qlen, cfg.d, fun h i j =>
      (∑ c ∈ Finset.range qlen, sm.entry h i c * V.headI.entry h c j) +
      ∑ m ∈ Finset.range (L - 1),
        sm.entry h i (qlen + m) * (V.getD (m + 1) default).entry h i j⟩
  reshapeOut cfg qlen o

/-- The pre-softmax logit of cache mode at head h, query row i, column c,
with the cache already appended: the masked scaled q·k₀ᵀ block for
c < q_len, and the scaled per-position scalar q·k_step dot product for
column q_len + (step - 1). -/
def logitEntry (cfg : AttnCfg) (hid : TokMat) (mask : MTen3) (pid : ℕ → ℕ)
    (cache : List Ten3 × List Ten3) (h i c : ℕ) : WithBot ℚ :=
  if c < hid.len then
    (((∑ t ∈ Finset.range cfg.d,
        (qTen cfg hid pid cache.1.length).entry h i t
          * (cache.1 ++ [repeatKV (kTen cfg hid pid cache.1.length) cfg.G]).headI.entry h c t)
      / cfg.sqrtd : ℚ) : WithBot ℚ) + mask.entry h i c
  else
    (((∑ t ∈ Finset.range cfg.d,
        (qTen cfg hid pid cache.1.length).entry h i t
          * ((cache.1 ++ [repeatKV (kTen cfg hid pid cache.1.length) cfg.G]).getD
              (c - hid.len + 1) default).entry h i t)
      / cfg.sqrtd : ℚ) : WithBot ℚ)

/-- The joint softmax weight of cache mode at head h, query row i,
column c, over the q_len + (L - 1) concatenated logit columns. -/
def smEntry (cfg : AttnCfg) (hid : TokMat) (mask : MTen3) (pid : ℕ → ℕ)
    (cache : List Ten3 × List Ten3) (h i c : ℕ) : ℚ :=
  expBot cfg.E (logitEntry cfg hid mask pid cache h i c)
    / ∑ t ∈ Finset.range (hid.len + cache.1.length),
        expBot cfg.E (logitEntry cfg hid mask pid cache h i t)

/-- The pre-softmax logit of the no-cache branch at head h, query row i,
key position s: the scaled q·kᵀ entry plus the additive mask entry. -/
def nocacheLogit (cfg : AttnCfg) (hid : TokMat) (mask : MTen3) (pid : ℕ → ℕ)
    (h i s : ℕ) : WithBot ℚ :=
  (((∑ t ∈ Finset.range cfg.d,
      (qTen cfg hid pid 0).entry h i t
        * (repeatKV (kTen cfg hid pid 0) cfg.G).entry h s t) / cfg.sqrtd : ℚ) : WithBot ℚ)
    + mask.entry h i s

/-! ### BlockSparseAttention: Qwen3FlexAttention.forward (claim C4)

The flex kernels (create_block_mask, flex_attention, their
compile-friendly wrappers and generate_eagle3_mask) and the transformers
paged cache are outside src/, so they appear as abstract parameters /
spec-modelled state; the src forward that calls them is embedded
faithfully. -/

/-- Modelled from the spec: the external paged KV cache of §6 —
`get_seq_length` returns the accumulated sequence length, and `update`
appends the new key/value slice along the sequence axis and returns the
full accumulated key/value tensors.  One layer (the draft model passes
layer_idx = 0 for its single layer). -/
structure PagedCache where
  keyCache : Ten3
  valueCache : Ten3

/-- Modelled from the spec: Cache.get_seq_length(). -/
def pagedSeqLength (c : PagedCache) : ℕ := c.keyCache.rows

/-- Concatenate along the sequence (row) axis. -/
def catRows (x y : Ten3) : Ten3 :=
  ⟨x.rows + y.rows, x.cols, fun h i j =>
    if i < x.rows then x.entry h i j else y.entry h (i - x.rows) j⟩

/-- Modelled from the spec: Cache.update(key, value, layer_idx, kwargs)
appends the slices and returns the full accumulated tensors. -/
def pagedUpdate (c : PagedCache) (k v : Ten3) : PagedCache × (Ten3 × Ten3) :=
  let kFull := catRows c.keyCache k
  let vFull := catRows c.valueCache v
  (⟨kFull, vFull⟩, (kFull, vFull))

/-- Qwen3FlexAttention.forward (qwen3_eagle.py:246-323) at one batch
element.  `genMask` abstracts generate_eagle3_mask(seq_lengths, Q_LEN,
KV_LEN, shift_left) (per-batch seq_lengths reduces to one integer here);
`cbmA`/`cbmB` abstract create_block_mask and its compile-friendly variant
(arguments: mask_mod, B, H, Q_LEN, KV_LEN); `fxA`/`fxB` abstract
flex_attention and its compile-friendly variant.  `amask` is the raw
loader attention-mask row of this batch element with length `amaskLen`;
its row sum minus the step offset is the per-batch valid length. -/
def forwardFlex {BM : Type} (cfg : AttnCfg)
    (genMask : ℤ → ℕ → ℕ → ℕ → (ℕ → ℕ → Bool))
    (cbmA cbmB : (ℕ → ℕ → Bool) → ℕ → ℕ → ℕ → ℕ → BM)
    (fxA fxB : Ten3 → Ten3 → Ten3 → BM → Ten3)
    (hid : TokMat) (amask : ℕ → ℕ) (amaskLen : ℕ) (pid : ℕ → ℕ)
    (cache : PagedCache) : PagedCache × TokMat :=
  let qlen := hid.len
  let pastSeen := pagedSeqLength cache
  let lck := pastSeen / qlen
  let q := qTen cfg hid pid lck
  let k := kTen cfg hid pid lck
  let v := vTen cfg hid
  let upd := pagedUpdate cache k v
  let keyCache := upd.2.1
  let valueCache := upd.2.2
  let seqLen : ℤ := (↑(∑ j ∈ Finset.range amaskLen, amask j) : ℤ) - (↑lck : ℤ)
  let blockMask :=
    (if qlen ≤ 128 then cbmA else cbmB)
      (genMask seqLen qlen keyCache.rows lck) 1 1 qlen keyCache.rows
  let o := (if qlen ≤ 128 then fxA else fxB) q keyCache valueCache blockMask
  (upd.1, reshapeOut cfg qlen o)

/-! ### Decoder layer construction (claim C6) -/

/-- The two attention backend variants a decoder layer can hold. -/
inductive Backend where
  | standard : Backend
  | blockSparse : Backend
deriving DecidableEq

/-- A constructed decoder layer; only the selected backend matters to the
claims (the other submodules always construct). -/
structure DecoderLayer where
  backend : Backend

/-- Qwen3DecoderLayer.__init__ (qwen3_eagle.py:327-337): the backend
string is resolved in the constructor body itself; an unrecognized name
raises ValueError there, before any layer object exists, so no forward
call can ever be reached with a bad backend. -/
def mkDecoderLayer (attentionBackendName : String) : Except String DecoderLayer :=
  if attentionBackendName = "sdpa" then Except.ok ⟨Backend.standard⟩
  else if attentionBackendName = "flex_attention" then Except.ok ⟨Backend.blockSparse⟩
  else Except.error ("Unknown attention backend " ++ attentionBackendName)

/-! ### Draft-model cache allocation (claim C7) -/

/-- The cache_hidden value Qwen3ForCausalLMEagle3.forward builds and
passes to the decoder layer (qwen3_eagle.py:414-419): none for
ttt_length == 1, and a freshly constructed empty pair of lists otherwise
(the literal [[], []] allocates new lists on every call). -/
def eagleCacheHidden (tttLength : ℕ) : Option (List Ten3 × List Ten3) :=
  if tttLength = 1 then none else some ([], [])

/-! ### Hidden-state projection width check (claim C10) -/

/-- The constructor configuration fields that matter to the fusion layer
(qwen3_eagle.py:394-397). -/
structure EagleCfg where
  hiddenSize : ℕ
  targetHiddenSize : Option ℕ

/-- in_features of the fc fusion layer: target_hidden_size * 3 when the
config has one, else hidden_size * 3 (qwen3_eagle.py:394-397). -/
def fcInFeatures (c : EagleCfg) : ℕ := (c.targetHiddenSize.getD c.hiddenSize) * 3

/-- Whether nn.Linear(fcInFeatures, hidden) accepts an input whose last
dimension is w: torch raises unless w equals in_features. -/
def fcAccepts (c : EagleCfg) (w : ℕ) : Bool := w = fcInFeatures c

/-- The two failure modes of project_hidden_states. -/
inductive ProjErr where
  | assertFailed : ProjErr
  | linearShape : ProjErr
deriving DecidableEq

/-- Qwen3ForCausalLMEagle3.project_hidden_states (qwen3_eagle.py:456-458)
on an input of last-dimension width w: the assert compares w with
config.hidden_size * 3; only if it passes is self.fc applied, which itself
requires w = fcInFeatures.  Returns the output width on success. -/
def projectHiddenStates (c : EagleCfg) (w : ℕ) : Except ProjErr ℕ :=
  if w = c.hiddenSize * 3 then
    if w = fcInFeatures c then Except.ok c.hiddenSize else Except.error ProjErr.linearShape
  else Except.error ProjErr.assertFailed

/-! ### Rotary table construction (claim C8) -/

/-- Modelled from the spec (§4.1) and Qwen3RotaryEmbedding.forward
(qwen3_eagle.py:89-104): the cos table of one position for head_dim
2*half.  The rope-init function (external ROPE_INIT_FUNCTIONS) supplies
inv_freq and the attention-scaling constant A; `c j` abstracts the real
cos(inv_freq[j]·position) for j < half.  The table duplicates the
frequency row across the two halves (emb = cat(freqs, freqs)) and
multiplies by A. -/
def ropeCosTable (A : ℚ) (half : ℕ) (c : ℕ → ℚ) : ℕ → ℚ := fun j =>
  A * (if j < half then c j else c (j - half))

/-- Modelled from the spec (§4.1), as `ropeCosTable` but for sin. -/
def ropeSinTable (A : ℚ) (half : ℕ) (s : ℕ → ℚ) : ℕ → ℚ := fun j =>
  A * (if j < half then s j else s (j - half))

/-- rotate(x) with a rotary table followed by rotate with sin negated (the
claimed inverse), at head_dim 2*half. -/
def rotThenInv (A : ℚ) (half : ℕ) (c s : ℕ → ℚ) (x : ℕ → ℚ) : ℕ → ℚ :=
  applyRot (2 * half) (ropeCosTable A half c) (fun j => -ropeSinTable A half s j)
    (applyRot (2 * half) (ropeCosTable A half c) (ropeSinTable A half s) x)

/-! ### JSONL sampler, fixed-size mode (claim C9)

`rng v` models the value random.randint(1, v) returns at the draw made
while processing the v-th valid line; random.seed(seed) at function entry
makes this stream a pure function of the seed, so the embedding is a pure
function of (lines, size, validate, valid, rng). -/

/-- 1-based enumeration of the input lines (iter_lines,
jsonl_sample.py:9-16). -/
def enumLines (lines : List String) : List (ℕ × String) :=
  lines.enum.map (fun p => (p.1 + 1, p.2))

/-- One iteration of the reservoir loop (jsonl_sample.py:51-62) on state
(reservoir, valid_seen), for a line that passed validation. -/
def reservoirStep (size : ℕ) (rng : ℕ → ℕ) (st : List (ℕ × String) × ℕ)
    (pr : ℕ × String) : List (ℕ × String) × ℕ :=
  let v := st.2 + 1
  if st.1.length < size then (st.1 ++ [pr], v)
  else
    let j := rng v
    if j ≤ size then (st.1.set (j - 1) pr, v) else (st.1, v)

/-- One loop iteration including the validation skip
(jsonl_sample.py:51-62): an invalid line leaves the reservoir and
valid_seen untouched. -/
def lineStep (validate : Bool) (valid : String → Bool) (size : ℕ) (rng : ℕ → ℕ)
    (st : List (ℕ × String) × ℕ) (pr : ℕ × String) : List (ℕ × String) × ℕ :=
  if validate && !valid pr.2 then st else reservoirStep size rng st pr

/-- sample_fixed_size (jsonl_sample.py:30-72): single pass over the
enumerated lines, reservoir of up to `size` (position, line) pairs,
re-sorted by original position before writing.  Returns (written lines,
total_seen, valid_seen). -/
def sampleFixedSize (lines : List String) (size : ℕ) (validate : Bool)
    (valid : String → Bool) (rng : ℕ → ℕ) : List String × ℕ × ℕ :=
  let st := (enumLines lines).foldl (lineStep validate valid size rng) ([], 0)
  let sorted := st.1.mergeSort (fun a b => a.1 ≤ b.1)
  (sorted.map Prod.snd, lines.length, st.2)

/-- A small concrete attention configuration used by witnesses: head_dim 1,
one key/value group, trivial projections and tables. -/
def cfg1 : AttnCfg :=
  ⟨1, 1, 1, id, fun _ _ _ => 0, fun _ _ _ => 0, fun _ _ _ => 0,
    fun v => v, fun v => v, fun _ _ => 1, fun _ _ => 0, fun v => v⟩

/-- A one-token zero input used by witnesses. -/
def tok1 : TokMat := ⟨1, fun _ _ => 0⟩

/-! ## Helper lemmas -/

theorem bdim_self (a : ℕ) : bdim a a = a := by
  unfold bdim
  split_ifs with h <;> omega

theorem bdim_one_left (b : ℕ) : bdim 1 b = b := rfl

theorem bidx_eq_of_lt {a i : ℕ} (h : i < a) : bidx a i = i := by
  unfold bidx
  split_ifs with h1 <;> omega

theorem scalarEntry_clean (q k : Ten3) (h i : ℕ) (hi : i < q.rows)
    (hkr : k.rows = q.rows) (hkc : k.cols = q.cols) :
    (∑ t ∈ Finset.range (bdim q.cols k.cols),
        q.entry h (bidx q.rows i) (bidx q.cols t) * k.entry h (bidx k.rows i) (bidx k.cols t))
      = ∑ t ∈ Finset.range q.cols, q.entry h i t * k.entry h i t := by
  rw [hkc, hkr, bdim_self, bidx_eq_of_lt hi]
  exact Finset.sum_congr rfl fun t ht => by
    rw [bidx_eq_of_lt (Finset.mem_range.mp ht)]

theorem accWeights_eval (sq : ℚ) (q : Ten3) :
    ∀ (ks : List Ten3) (acc : MTen3), acc.rows = q.rows →
      (∀ k ∈ ks, k.rows = q.rows ∧ k.cols = q.cols) →
      ∃ w, accWeights sq q acc ks = some w ∧ w.rows = acc.rows ∧
        w.cols = acc.cols + ks.length ∧
        (∀ h i j, i < q.rows → j < acc.cols → w.entry h i j = acc.entry h i j) ∧
        (∀ h i m, i < q.rows → m < ks.length →
          w.entry h i (acc.cols + m)
            = (((∑ t ∈ Finset.range q.cols,
                q.entry h i t * (ks.getD m default).entry h i t) / sq : ℚ) : WithBot ℚ)) := by
  intro ks
  induction ks with
  | nil =>
      intro acc hrows _
      refine ⟨acc, by simp [accWeights], rfl, by simp, fun h i j _ _ => rfl, ?_⟩
      intro h i m _ hm
      exact absurd hm (by simp)
  | cons k rest ih =>
      intro acc hrows hks
      obtain ⟨hkr, hkc⟩ := hks k (by simp)
      have hsc : scalarCol sq q k
          = some ⟨q.rows, 1, fun h i _ =>
              (((∑ t ∈ Finset.range (bdim q.cols k.cols),
                  q.entry h (bidx q.rows i) (bidx q.cols t)
                    * k.entry h (bidx k.rows i) (bidx k.cols t)) / sq : ℚ) : WithBot ℚ)⟩ := by
        unfold scalarCol
        rw [if_pos ⟨Or.inl hkr.symm, Or.inl hkc.symm⟩, hkr, bdim_self]
      have hcat : catCols acc
          ⟨q.rows, 1, fun h i _ =>
              (((∑ t ∈ Finset.range (bdim q.cols k.cols),
                  q.entry h (bidx q.rows i) (bidx q.cols t)
                    * k.entry h (bidx k.rows i) (bidx k.cols t)) / sq : ℚ) : WithBot ℚ)⟩
          = some ⟨acc.rows, acc.cols + 1, fun h i j =>
              if j < acc.cols then acc.entry h i j
              else (((∑ t ∈ Finset.range (bdim q.cols k.cols),
                  q.entry h (bidx q.rows i) (bidx q.cols t)
                    * k.entry h (bidx k.rows i) (bidx k.cols t)) / sq : ℚ) : WithBot ℚ)⟩ := by
        unfold catCols
        rw [if_pos hrows]
      obtain ⟨w, hw, hwr, hwc, hwold, hwnew⟩ :=
        ih ⟨acc.rows, acc.cols + 1, fun h i j =>
              if j < acc.cols then acc.entry h i j
              else (((∑ t ∈ Finset.range (bdim q.cols k.cols),
                  q.entry h (bidx q.rows i) (bidx q.cols t)
                    * k.entry h (bidx k.rows i) (bidx k.cols t)) / sq : ℚ) : WithBot ℚ)⟩
          hrows (fun k2 hk2 => hks k2 (List.mem_cons_of_mem _ hk2))
      refine ⟨w, ?_, hwr, ?_, ?_, ?_⟩
      · simp only [accWeights, Option.bind_eq_bind]
        rw [hsc, Option.some_bind, hcat, Option.some_bind]
        exact hw
      · rw [hwc]
        simp only [List.length_cons]
        omega
      · intro h i j hi hj
        exact (hwold h i j hi (Nat.lt_succ_of_lt hj)).trans (if_pos hj)
      · intro h i m hi hm
        match m with
        | 0 =>
            have h1 := hwold h i acc.cols hi (Nat.lt_succ_self _)
            rw [Nat.add_zero, h1]
            simp only []
            rw [if_neg (lt_irrefl acc.cols), scalarEntry_clean q k h i hi hkr hkc,
              List.getD_cons_zero]
        | Nat.succ m2 =>
            have hcol : acc.cols + (m2 + 1) = acc.cols + 1 + m2 := by omega
            rw [hcol, List.getD_cons_succ]
            exact hwnew h i m2 hi (by simpa using hm)

theorem accOut_eval (sm : Ten3) (qlen : ℕ) :
    ∀ (vs : List Ten3) (acc : Ten3) (i0 : ℕ), acc.rows = sm.rows →
      (∀ v ∈ vs, v.rows = sm.rows ∧ v.cols = acc.cols) →
      ∃ o, accOut sm qlen acc i0 vs = some o ∧ o.rows = acc.rows ∧ o.cols = acc.cols ∧
        (∀ h i j, i < sm.rows → j < acc.cols →
          o.entry h i j = acc.entry h i j +
            ∑ m ∈ Finset.range vs.length,
              sm.entry h i (qlen + (i0 + m) - 1) * (vs.getD m default).entry h i j) := by
  intro vs
  induction vs with
  | nil =>
      intro acc i0 hrows _
      exact ⟨acc, by simp [accOut], rfl, rfl, fun h i j _ _ => by simp⟩
  | cons v rest ih =>
      intro acc i0 hrows hvs
      obtain ⟨hvr, hvc⟩ := hvs v (by simp)
      have hr2 : bdim sm.rows v.rows = sm.rows := by rw [hvr, bdim_self]
      have hc2 : bdim 1 v.cols = acc.cols := by rw [bdim_one_left, hvc]
      have hmul : mulBr ⟨sm.rows, 1, fun h r _ => sm.entry h r (qlen + i0 - 1)⟩ v
          = some ⟨bdim sm.rows v.rows, bdim 1 v.cols, fun h i j =>
              sm.entry h (bidx sm.rows i) (qlen + i0 - 1)
                * v.entry h (bidx v.rows i) (bidx v.cols j)⟩ := by
        unfold mulBr
        rw [if_pos ⟨Or.inl hvr.symm, Or.inr (Or.inl rfl)⟩]
      have hadd : addBr acc
          ⟨bdim sm.rows v.rows, bdim 1 v.cols, fun h i j =>
              sm.entry h (bidx sm.rows i) (qlen + i0 - 1)
                * v.entry h (bidx v.rows i) (bidx v.cols j)⟩
          = some ⟨bdim acc.rows (bdim sm.rows v.rows), bdim acc.cols (bdim 1 v.cols),
              fun h i j => acc.entry h (bidx acc.rows i) (bidx acc.cols j) +
                sm.entry h (bidx sm.rows (bidx (bdim sm.rows v.rows) i)) (qlen + i0 - 1)
                  * v.entry h (bidx v.rows (bidx (bdim sm.rows v.rows) i))
                      (bidx v.cols (bidx (bdim 1 v.cols) j))⟩
          := by
        unfold addBr
        rw [if_pos ⟨Or.inl (by rw [hr2, hrows]), Or.inl hc2.symm⟩]
      have hac2 : bdim acc.cols (bdim 1 v.cols) = acc.cols := by rw [hc2, bdim_self]
      obtain ⟨o, ho, hor, hoc, hoe⟩ :=
        ih ⟨bdim acc.rows (bdim sm.rows v.rows), bdim acc.cols (bdim 1 v.cols),
            fun h i j => acc.entry h (bidx acc.rows i) (bidx acc.cols j) +
              sm.entry h (bidx sm.rows (bidx (bdim sm.rows v.rows) i)) (qlen + i0 - 1)
                * v.entry h (bidx v.rows (bidx (bdim sm.rows v.rows) i))
                    (bidx v.cols (bidx (bdim 1 v.cols) j))⟩
          (i0 + 1)
          (show bdim acc.rows (bdim sm.rows v.rows) = sm.rows by
            rw [hr2, ← hrows, bdim_self])
          (fun v2 hv2 => ⟨(hvs v2 (List.mem_cons_of_mem _ hv2)).1,
            show v2.cols = bdim acc.cols (bdim 1 v.cols) by
              rw [(hvs v2 (List.mem_cons_of_mem _ hv2)).2]; exact hac2.symm⟩)
      refine ⟨o, ?_, ?_, ?_, ?_⟩
      · simp only [accOut, Option.bind_eq_bind]
        rw [hmul, Option.some_bind, hadd, Option.some_bind]
        exact ho
      · rw [hor]
        show bdim acc.rows (bdim sm.rows v.rows) = acc.rows
        rw [hr2, ← hrows, bdim_self]
      · rw [hoc]
        exact hac2
      · intro h i j hi hj
        rw [hoe h i j hi (show j < bdim acc.cols (bdim 1 v.cols) by rw [hac2]; exact hj)]
        have hia : bidx acc.rows i = i := bidx_eq_of_lt (by rw [hrows]; exact hi)
        have hi2 : bidx (bdim sm.rows v.rows) i = i := bidx_eq_of_lt (by rw [hr2]; exact hi)
        have his : bidx sm.rows i = i := bidx_eq_of_lt hi
        have hiv : bidx v.rows i = i := bidx_eq_of_lt (by rw [hvr]; exact hi)
        have hja : bidx acc.cols j = j := bidx_eq_of_lt hj
        have hj1 : bidx (bdim 1 v.cols) j = j := bidx_eq_of_lt (by rw [hc2]; exact hj)
        have hjv : bidx v.cols j = j := bidx_eq_of_lt (by rw [hvc]; exact hj)
        simp only []
        rw [hia, hja, hi2, his, hiv, hj1, hjv]
        rw [List.length_cons, Finset.sum_range_succ']
        have hsum : (∑ m ∈ Finset.range rest.length,
              sm.entry h i (qlen + (i0 + 1 + m) - 1) * (rest.getD m default).entry h i j)
            = ∑ m ∈ Finset.range rest.length,
              sm.entry h i (qlen + (i0 + (m + 1)) - 1)
                * (((v :: rest).getD (m + 1) default).entry h i j) := by
          refine Finset.sum_congr rfl fun m _ => ?_
          rw [List.getD_cons_succ, show qlen + (i0 + (m + 1)) - 1 = qlen + (i0 + 1 + m) - 1
            from by omega]
        rw [hsum]
        simp only [Nat.add_zero, List.getD_cons_zero]
        ring

theorem forwardCache_eval (cfg : AttnCfg) (hid : TokMat) (mask : MTen3) (pid : ℕ → ℕ)
    (cache : List Ten3 × List Ten3) (hd : 0 < cfg.d)
    (hm1 : mask.rows = hid.len) (hm2 : mask.cols = hid.len)
    (hK : ∀ k ∈ cache.1, k.rows = hid.len ∧ k.cols = cfg.d)
    (hV : ∀ v ∈ cache.2, v.rows = hid.len ∧ v.cols = cfg.d)
    (hlen : cache.1.length = cache.2.length) :
    ∃ o, (forwardCache cfg hid mask pid cache).2 = some o ∧ o.len = hid.len ∧
      ∀ i f, i < hid.len →
        o.row i f = cfg.op (fun g =>
          (∑ c ∈ Finset.range hid.len,
            smEntry cfg hid mask pid cache (g / cfg.d) i c
              * (cache.2 ++ [repeatKV (vTen cfg hid) cfg.G]).headI.entry (g / cfg.d) c (g % cfg.d))
          + ∑ m ∈ Finset.range cache.1.length,
            smEntry cfg hid mask pid cache (g / cfg.d) i (hid.len + m)
              * ((cache.2 ++ [repeatKV (vTen cfg hid) cfg.G]).getD (m + 1) default).entry
                  (g / cfg.d) i (g % cfg.d)) f := by
  obtain ⟨k0, kt, hKat⟩ := List.exists_cons_of_ne_nil
    (show cache.1 ++ [repeatKV (kTen cfg hid pid cache.1.length) cfg.G] ≠ [] by simp)
  obtain ⟨v0, vt, hVat⟩ := List.exists_cons_of_ne_nil
    (show cache.2 ++ [repeatKV (vTen cfg hid) cfg.G] ≠ [] by simp)
  have hKmem : ∀ k ∈ k0 :: kt, k.rows = hid.len ∧ k.cols = cfg.d := by
    rw [← hKat]
    intro k hk
    rcases List.mem_append.mp hk with h | h
    · exact hK k h
    · have hkE : k = repeatKV (kTen cfg hid pid cache.1.length) cfg.G := by simpa using h
      subst hkE
      exact ⟨rfl, rfl⟩
  have hVmem : ∀ v ∈ v0 :: vt, v.rows = hid.len ∧ v.cols = cfg.d := by
    rw [← hVat]
    intro v hv
    rcases List.mem_append.mp hv with h | h
    · exact hV v h
    · have hvE : v = repeatKV (vTen cfg hid) cfg.G := by simpa using h
      subst hvE
      exact ⟨rfl, rfl⟩
  have hk0 := hKmem k0 (by simp)
  have hv0 := hVmem v0 (by simp)
  have hktlen : kt.length = cache.1.length := by
    have h1 := congrArg List.length hKat
    simp only [List.length_append, List.length_cons, List.length_nil] at h1
    omega
  have hvtlen : vt.length = cache.1.length := by
    have h1 := congrArg List.length hVat
    simp only [List.length_append, List.length_cons, List.length_nil] at h1
    omega
  have hw0 : matmulT cfg.sqrtd (qTen cfg hid pid cache.1.length) k0
      = some ⟨hid.len, k0.rows, fun hh a b =>
          (((∑ t ∈ Finset.range cfg.d,
              (qTen cfg hid pid cache.1.length).entry hh a t * k0.entry hh b t)
            / cfg.sqrtd : ℚ) : WithBot ℚ)⟩ := by
    unfold matmulT
    rw [if_pos (show (qTen cfg hid pid cache.1.length).cols = k0.cols by rw [hk0.2]; rfl)]
    rfl
  have hwm : addBM
      ⟨hid.len, k0.rows, fun hh a b =>
        (((∑ t ∈ Finset.range cfg.d,
            (qTen cfg hid pid cache.1.length).entry hh a t * k0.entry hh b t)
          / cfg.sqrtd : ℚ) : WithBot ℚ)⟩ mask
      = some ⟨bdim hid.len mask.rows, bdim k0.rows mask.cols, fun hh a b =>
          (((∑ t ∈ Finset.range cfg.d,
              (qTen cfg hid pid cache.1.length).entry hh (bidx hid.len a) t
                * k0.entry hh (bidx k0.rows b) t) / cfg.sqrtd : ℚ) : WithBot ℚ)
          + mask.entry hh (bidx mask.rows a) (bidx mask.cols b)⟩ := by
    unfold addBM
    rw [if_pos ⟨Or.inl (by rw [hm1]), Or.inl (by rw [hk0.1, hm2])⟩]
  have hwmr : bdim hid.len mask.rows = hid.len := by rw [hm1, bdim_self]
  have hwmc : bdim k0.rows mask.cols = hid.len := by rw [hk0.1, hm2, bdim_self]
  obtain ⟨w, hwacc, hwr, hwc, hwold, hwnew⟩ :=
    accWeights_eval cfg.sqrtd (qTen cfg hid pid cache.1.length) kt
      ⟨bdim hid.len mask.rows, bdim k0.rows mask.cols, fun hh a b =>
          (((∑ t ∈ Finset.range cfg.d,
              (qTen cfg hid pid cache.1.length).entry hh (bidx hid.len a) t
                * k0.entry hh (bidx k0.rows b) t) / cfg.sqrtd : ℚ) : WithBot ℚ)
          + mask.entry hh (bidx mask.rows a) (bidx mask.cols b)⟩
      hwmr
      (fun k2 hk2 => ⟨(hKmem k2 (List.mem_cons_of_mem _ hk2)).1,
        (hKmem k2 (List.mem_cons_of_mem _ hk2)).2⟩)
  have hwrows : w.rows = hid.len := by
    have h1 : w.rows = bdim hid.len mask.rows := hwr
    rw [h1, hwmr]
  have hwcols : w.cols = hid.len + cache.1.length := by
    have h1 : w.cols = bdim k0.rows mask.cols + kt.length := hwc
    rw [h1, hwmc, hktlen]
  have hw : cacheAttnWeights cfg (qTen cfg hid pid cache.1.length) mask
      (cache.1 ++ [repeatKV (kTen cfg hid pid cache.1.length) cfg.G]) = some w := by
    simp only [cacheAttnWeights, Option.bind_eq_bind]
    rw [hKat]
    simp only [List.headI_cons, List.tail_cons]
    rw [hw0, Option.some_bind, hwm, Option.some_bind]
    exact hwacc
  have hwlo : ∀ hh i c, i < hid.len → c < hid.len →
      w.entry hh i c
        = (((∑ t ∈ Finset.range cfg.d,
            (qTen cfg hid pid cache.1.length).entry hh i t * k0.entry hh c t)
          / cfg.sqrtd : ℚ) : WithBot ℚ) + mask.entry hh i c := by
    intro hh i c hi hc
    have h1 : w.entry hh i c
        = (((∑ t ∈ Finset.range cfg.d,
            (qTen cfg hid pid cache.1.length).entry hh (bidx hid.len i) t
              * k0.entry hh (bidx k0.rows c) t) / cfg.sqrtd : ℚ) : WithBot ℚ)
          + mask.entry hh (bidx mask.rows i) (bidx mask.cols c) :=
      hwold hh i c hi (show c < bdim k0.rows mask.cols by rw [hwmc]; exact hc)
    rw [h1, bidx_eq_of_lt hi, bidx_eq_of_lt (show c < k0.rows by rw [hk0.1]; exact hc),
      bidx_eq_of_lt (show i < mask.rows by rw [hm1]; exact hi),
      bidx_eq_of_lt (show c < mask.cols by rw [hm2]; exact hc)]
  have hwhi : ∀ hh i m, i < hid.len → m < cache.1.length →
      w.entry hh i (hid.len + m)
        = (((∑ t ∈ Finset.range cfg.d,
            (qTen cfg hid pid cache.1.length).entry hh i t
              * (kt.getD m default).entry hh i t) / cfg.sqrtd : ℚ) : WithBot ℚ) := by
    intro hh i m hi hm
    have h1 : w.entry hh i (bdim k0.rows mask.cols + m)
        = (((∑ t ∈ Finset.range cfg.d,
            (qTen cfg hid pid cache.1.length).entry hh i t
              * (kt.getD m default).entry hh i t) / cfg.sqrtd : ℚ) : WithBot ℚ) :=
      hwnew hh i m hi (by rw [hktlen]; exact hm)
    rw [hwmc] at h1
    exact h1
  have hwEq : ∀ hh i c, i < hid.len → c < hid.len + cache.1.length →
      w.entry hh i c = logitEntry cfg hid mask pid cache hh i c := by
    intro hh i c hi hc
    unfold logitEntry
    by_cases hclo : c < hid.len
    · rw [if_pos hclo, hwlo hh i c hi hclo, hKat, List.headI_cons]
    · rw [if_neg hclo]
      have hm : c - hid.len < cache.1.length := by omega
      have hc2 : c = hid.len + (c - hid.len) := by omega
      have h1 := hwhi hh i (c - hid.len) hi hm
      rw [← hc2] at h1
      rw [h1, hKat, List.getD_cons_succ]
  have hsmEq : ∀ hh i c, i < hid.len → c < hid.len + cache.1.length →
      (softmaxT cfg.E w).entry hh i c = smEntry cfg hid mask pid cache hh i c := by
    intro hh i c hi hc
    show expBot cfg.E (w.entry hh i c)
        / ∑ t ∈ Finset.range w.cols, expBot cfg.E (w.entry hh i t) = _
    rw [hwEq hh i c hi hc, hwcols]
    unfold smEntry
    congr 1
    exact Finset.sum_congr rfl fun t ht => by
      rw [hwEq hh i t hi (Finset.mem_range.mp ht)]
  have hmin : min w.cols hid.len = hid.len := by
    rw [hwcols]
    exact Nat.min_eq_right (Nat.le_add_right _ _)
  have ho0 : matmulStd (sliceCols (softmaxT cfg.E w) hid.len) v0
      = some ⟨w.rows, v0.cols, fun hh a b =>
          ∑ t ∈ Finset.range (min w.cols hid.len),
            (softmaxT cfg.E w).entry hh a t * v0.entry hh t b⟩ := by
    unfold matmulStd
    rw [if_pos (show (sliceCols (softmaxT cfg.E w) hid.len).cols = v0.rows by
      show min w.cols hid.len = v0.rows
      rw [hmin, hv0.1])]
    rfl
  obtain ⟨oT, hoacc, hor, hoc2, hoe⟩ :=
    accOut_eval (softmaxT cfg.E w) hid.len vt
      ⟨w.rows, v0.cols, fun hh a b =>
        ∑ t ∈ Finset.range (min w.cols hid.len),
          (softmaxT cfg.E w).entry hh a t * v0.entry hh t b⟩ 1
      rfl
      (fun v2 hv2 => ⟨(hVmem v2 (List.mem_cons_of_mem _ hv2)).1.trans hwrows.symm,
        (hVmem v2 (List.mem_cons_of_mem _ hv2)).2.trans hv0.2.symm⟩)
  have ho : cacheAttnOut hid.len (softmaxT cfg.E w)
      (cache.2 ++ [repeatKV (vTen cfg hid) cfg.G]) = some oT := by
    simp only [cacheAttnOut, Option.bind_eq_bind]
    rw [hVat]
    simp only [List.headI_cons, List.tail_cons]
    rw [ho0, Option.some_bind]
    exact hoacc
  refine ⟨reshapeOut cfg hid.len oT, ?_, rfl, ?_⟩
  · simp only [forwardCache, Option.bind_eq_bind]
    rw [hw, Option.some_bind, ho, Option.some_bind]
    rfl
  · intro i f hi
    show cfg.op (fun g => oT.entry (g / cfg.d) i (g % cfg.d)) f = _
    congr 1
    funext g
    have hj : g % cfg.d < cfg.d := Nat.mod_lt _ hd
    have h_o : oT.entry (g / cfg.d) i (g % cfg.d)
        = (∑ t ∈ Finset.range (min w.cols hid.len),
            (softmaxT cfg.E w).entry (g / cfg.d) i t * v0.entry (g / cfg.d) t (g % cfg.d))
          + ∑ m ∈ Finset.range vt.length,
            (softmaxT cfg.E w).entry (g / cfg.d) i (hid.len + (1 + m) - 1)
              * (vt.getD m default).entry (g / cfg.d) i (g % cfg.d) :=
      hoe (g / cfg.d) i (g % cfg.d)
        (show i < w.rows by rw [hwrows]; exact hi)
        (show g % cfg.d < v0.cols by rw [hv0.2]; exact hj)
    rw [h_o, hmin, hvtlen, hVat]
    simp only [List.headI_cons, List.getD_cons_succ]
    have hS1 : (∑ c ∈ Finset.range hid.len,
          (softmaxT cfg.E w).entry (g / cfg.d) i c * v0.entry (g / cfg.d) c (g % cfg.d))
        = ∑ c ∈ Finset.range hid.len,
          smEntry cfg hid mask pid cache (g / cfg.d) i c * v0.entry (g / cfg.d) c (g % cfg.d) :=
      Finset.sum_congr rfl fun c hcm => by
        rw [hsmEq (g / cfg.d) i c hi
          (lt_of_lt_of_le (Finset.mem_range.mp hcm) (Nat.le_add_right _ _))]
    have hS2 : (∑ m ∈ Finset.range cache.1.length,
          (softmaxT cfg.E w).entry (g / cfg.d) i (hid.len + (1 + m) - 1)
            * (vt.getD m default).entry (g / cfg.d) i (g % cfg.d))
        = ∑ m ∈ Finset.range cache.1.length,
          smEntry cfg hid mask pid cache (g / cfg.d) i (hid.len + m)
            * (vt.getD m default).entry (g / cfg.d) i (g % cfg.d) :=
      Finset.sum_congr rfl fun m hmm2 => by
        rw [show hid.len + (1 + m) - 1 = hid.len + m from by omega,
          hsmEq (g / cfg.d) i (hid.len + m) hi
            (by have := Finset.mem_range.mp hmm2; omega)]
    rw [hS1, hS2]

theorem forwardNoCache_eval (cfg : AttnCfg) (hid : TokMat) (mask : MTen3) (pid : ℕ → ℕ)
    (hd : 0 < cfg.d) (hm1 : mask.rows = hid.len) (hm2 : mask.cols = hid.len) :
    ∃ o, forwardNoCache cfg hid mask pid = some o ∧ o.len = hid.len ∧
      ∀ i f, i < hid.len →
        o.row i f = cfg.op (fun g =>
          ∑ s ∈ Finset.range hid.len,
            (expBot cfg.E (nocacheLogit cfg hid mask pid (g / cfg.d) i s)
              / ∑ u ∈ Finset.range hid.len,
                  expBot cfg.E (nocacheLogit cfg hid mask pid (g / cfg.d) i u))
              * (repeatKV (vTen cfg hid) cfg.G).entry (g / cfg.d) s (g % cfg.d)) f := by
  have hw0 : matmulT cfg.sqrtd (qTen cfg hid pid 0) (repeatKV (kTen cfg hid pid 0) cfg.G)
      = some ⟨hid.len, hid.len, fun hh a b =>
          (((∑ t ∈ Finset.range cfg.d,
              (qTen cfg hid pid 0).entry hh a t
                * (repeatKV (kTen cfg hid pid 0) cfg.G).entry hh b t)
            / cfg.sqrtd : ℚ) : WithBot ℚ)⟩ := by
    unfold matmulT
    rw [if_pos (show (qTen cfg hid pid 0).cols = (repeatKV (kTen cfg hid pid 0) cfg.G).cols
      from rfl)]
    rfl
  have hwm : addBM
      ⟨hid.len, hid.len, fun hh a b =>
        (((∑ t ∈ Finset.range cfg.d,
            (qTen cfg hid pid 0).entry hh a t
              * (repeatKV (kTen cfg hid pid 0) cfg.G).entry hh b t)
          / cfg.sqrtd : ℚ) : WithBot ℚ)⟩ mask
      = some ⟨bdim hid.len mask.rows, bdim hid.len mask.cols, fun hh a b =>
          (((∑ t ∈ Finset.range cfg.d,
              (qTen cfg hid pid 0).entry hh (bidx hid.len a) t
                * (repeatKV (kTen cfg hid pid 0) cfg.G).entry hh (bidx hid.len b) t)
            / cfg.sqrtd : ℚ) : WithBot ℚ)
          + mask.entry hh (bidx mask.rows a) (bidx mask.cols b)⟩ := by
    unfold addBM
    rw [if_pos ⟨Or.inl (by rw [hm1]), Or.inl (by rw [hm2])⟩]
  have hwmr : bdim hid.len mask.rows = hid.len := by rw [hm1, bdim_self]
  have hwmc : bdim hid.len mask.cols = hid.len := by rw [hm2, bdim_self]
  set wm : MTen3 := ⟨bdim hid.len mask.rows, bdim hid.len mask.cols, fun hh a b =>
      (((∑ t ∈ Finset.range cfg.d,
          (qTen cfg hid pid 0).entry hh (bidx hid.len a) t
            * (repeatKV (kTen cfg hid pid 0) cfg.G).entry hh (bidx hid.len b) t)
        / cfg.sqrtd : ℚ) : WithBot ℚ)
      + mask.entry hh (bidx mask.rows a) (bidx mask.cols b)⟩ with hwmdef
  have ho0 : matmulStd (softmaxT cfg.E wm) (repeatKV (vTen cfg hid) cfg.G)
      = some ⟨wm.rows, cfg.d, fun hh a b =>
          ∑ t ∈ Finset.range wm.cols,
            (softmaxT cfg.E wm).entry hh a t
              * (repeatKV (vTen cfg hid) cfg.G).entry hh t b⟩ := by
    unfold matmulStd
    rw [if_pos (show (softmaxT cfg.E wm).cols = (repeatKV (vTen cfg hid) cfg.G).rows by
      show wm.cols = hid.len
      rw [hwmdef]
      exact hwmc)]
    rfl
  have hlogit : ∀ hh i c, i < hid.len → c < hid.len →
      wm.entry hh i c = nocacheLogit cfg hid mask pid hh i c := by
    intro hh i c hi hc
    rw [hwmdef]
    show (((∑ t ∈ Finset.range cfg.d,
        (qTen cfg hid pid 0).entry hh (bidx hid.len i) t
          * (repeatKV (kTen cfg hid pid 0) cfg.G).entry hh (bidx hid.len c) t)
      / cfg.sqrtd : ℚ) : WithBot ℚ)
      + mask.entry hh (bidx mask.rows i) (bidx mask.cols c) = _
    rw [bidx_eq_of_lt hi, bidx_eq_of_lt hc,
      bidx_eq_of_lt (show i < mask.rows by rw [hm1]; exact hi),
      bidx_eq_of_lt (show c < mask.cols by rw [hm2]; exact hc)]
    rfl
  refine ⟨reshapeOut cfg hid.len
      ⟨wm.rows, cfg.d, fun hh a b =>
        ∑ t ∈ Finset.range wm.cols,
          (softmaxT cfg.E wm).entry hh a t
            * (repeatKV (vTen cfg hid) cfg.G).entry hh t b⟩, ?_, rfl, ?_⟩
  · simp only [forwardNoCache, Option.bind_eq_bind]
    rw [hw0, Option.some_bind, hwm, Option.some_bind, ho0, Option.some_bind]
    rfl
  · intro i f hi
    show cfg.op (fun g =>
        ∑ t ∈ Finset.range wm.cols,
          (softmaxT cfg.E wm).entry (g / cfg.d) i t
            * (repeatKV (vTen cfg hid) cfg.G).entry (g / cfg.d) t (g % cfg.d)) f = _
    congr 1
    funext g
    have hcols : wm.cols = hid.len := by rw [hwmdef]; exact hwmc
    rw [hcols]
    refine Finset.sum_congr rfl fun s hs => ?_
    have hslt := Finset.mem_range.mp hs
    have hsm : (softmaxT cfg.E wm).entry (g / cfg.d) i s
        = expBot cfg.E (nocacheLogit cfg hid mask pid (g / cfg.d) i s)
          / ∑ u ∈ Finset.range hid.len,
              expBot cfg.E (nocacheLogit cfg hid mask pid (g / cfg.d) i u) := by
      show expBot cfg.E (wm.entry (g / cfg.d) i s)
          / ∑ u ∈ Finset.range wm.cols, expBot cfg.E (wm.entry (g / cfg.d) i u) = _
      rw [hlogit (g / cfg.d) i s hi hslt, hcols]
      congr 1
      exact Finset.sum_congr rfl fun u hu =>
        by rw [hlogit (g / cfg.d) i u hi (Finset.mem_range.mp hu)]
    rw [hsm]

theorem getD_map_range {α : Type} (f : ℕ → α) (n i : ℕ) (hi : i < n) (d : α) :
    ((List.range n).map f).getD i d = f i := by
  rw [List.getD_eq_getElem?_getD, List.getElem?_map, List.getElem?_range hi]
  rfl

theorem rolloutCache_eval (cfg : AttnCfg) (h : ℕ → ℕ → ℚ) :
    ∀ n, rolloutCache cfg h n
      = ((List.range n).map (kStepC1 cfg h), (List.range n).map (vStepC1 cfg h)) := by
  intro n
  induction n with
  | zero => rfl
  | succ n ih =>
      show (forwardCache cfg (stepHid h n) maskOne (fun _ => 0) (rolloutCache cfg h n)).1 = _
      rw [ih]
      simp only [forwardCache]
      rw [List.range_succ, List.map_append, List.map_append]
      simp only [List.map_cons, List.map_nil, List.length_map, List.length_range]
      rfl

theorem accWeights_some_shape (sq : ℚ) (q : Ten3) :
    ∀ (ks : List Ten3) (acc w : MTen3), accWeights sq q acc ks = some w →
      w.rows = acc.rows ∧ w.cols = acc.cols + ks.length := by
  intro ks
  induction ks with
  | nil =>
      intro acc w h
      simp only [accWeights, Option.some.injEq] at h
      subst h
      exact ⟨rfl, by simp⟩
  | cons k rest ih =>
      intro acc w h
      simp only [accWeights, Option.bind_eq_bind, Option.bind_eq_some] at h
      obtain ⟨wi, hwi, acc2, hacc2, hrec⟩ := h
      unfold scalarCol at hwi
      split_ifs at hwi
      cases hwi
      unfold catCols at hacc2
      split_ifs at hacc2
      cases hacc2
      obtain ⟨hr, hc⟩ := ih _ _ hrec
      refine ⟨hr, ?_⟩
      simp only [hc, List.length_cons]
      omega

theorem nodup_set_of_not_mem {l : List ℕ} :
    ∀ {n : ℕ} {y : ℕ}, l.Nodup → y ∉ l → (l.set n y).Nodup := by
  induction l with
  | nil => intro n y _ _; simp
  | cons a tl ih =>
      intro n y hl hy
      cases n with
      | zero =>
          simp only [List.set_cons_zero]
          simp only [List.nodup_cons] at hl ⊢
          exact ⟨fun hm => hy (List.mem_cons_of_mem _ hm), hl.2⟩
      | succ n =>
          simp only [List.set_cons_succ]
          simp only [List.nodup_cons] at hl ⊢
          refine ⟨fun hm => ?_, ih hl.2 (fun hm => hy (List.mem_cons_of_mem _ hm))⟩
          rcases List.mem_or_eq_of_mem_set hm with hm2 | hm2
          · exact hl.1 hm2
          · subst hm2
            exact hy (List.mem_cons_self _ _)

theorem lineStep_snd_one (validate : Bool) (valid : String → Bool) (size : ℕ)
    (rng : ℕ → ℕ) (st : List (ℕ × String) × ℕ) (pr : ℕ × String) :
    (lineStep validate valid size rng st pr).2
      = st.2 + (if (!validate || valid pr.2) then 1 else 0) := by
  unfold lineStep reservoirStep
  cases validate <;> cases hvp : valid pr.2 <;> simp [hvp] <;> split_ifs <;> rfl

theorem foldl_lineStep_snd (validate : Bool) (valid : String → Bool) (size : ℕ)
    (rng : ℕ → ℕ) :
    ∀ (ps : List (ℕ × String)) (st : List (ℕ × String) × ℕ),
      (ps.foldl (lineStep validate valid size rng) st).2
        = st.2 + ps.countP (fun pr => !validate || valid pr.2) := by
  intro ps
  induction ps with
  | nil => intro st; simp
  | cons pr rest ih =>
      intro st
      simp only [List.foldl_cons, ih, List.countP_cons, lineStep_snd_one]
      by_cases hp : (!validate || valid pr.2) = true
      · simp [hp]
        omega
      · simp [hp]

theorem foldl_lineStep_inv (validate : Bool) (valid : String → Bool) (size : ℕ)
    (rng : ℕ → ℕ) (P : List (ℕ × String)) :
    ∀ (ps : List (ℕ × String)) (st : List (ℕ × String) × ℕ) (b : ℕ),
      List.Pairwise (fun a c => a.1 < c.1) ps →
      (∀ pr ∈ ps, pr ∈ P) →
      (∀ pr ∈ ps, b ≤ pr.1) →
      st.1.length = min size st.2 →
      (∀ pr ∈ st.1, pr ∈ P ∧ pr.1 < b) →
      (st.1.map Prod.fst).Nodup →
      (ps.foldl (lineStep validate valid size rng) st).1.length
          = min size (ps.foldl (lineStep validate valid size rng) st).2 ∧
      (∀ pr ∈ (ps.foldl (lineStep validate valid size rng) st).1, pr ∈ P) ∧
      ((ps.foldl (lineStep validate valid size rng) st).1.map Prod.fst).Nodup := by
  intro ps
  induction ps with
  | nil =>
      intro st b _ _ _ hlen hmem hnd
      exact ⟨hlen, fun pr hpr => (hmem pr hpr).1, hnd⟩
  | cons pr rest ih =>
      intro st b hpw hP hb hlen hmem hnd
      simp only [List.foldl_cons]
      have hrest_gt : ∀ x ∈ rest, pr.1 + 1 ≤ x.1 := by
        intro x hx
        have := (List.pairwise_cons.mp hpw).1 x hx
        omega
      have hprb : b ≤ pr.1 := hb pr (List.mem_cons_self _ _)
      by_cases hv : (validate && !valid pr.2) = true
      · rw [show lineStep validate valid size rng st pr = st from by
          unfold lineStep; rw [if_pos hv]]
        exact ih st b hpw.of_cons (fun x hx => hP x (List.mem_cons_of_mem _ hx))
          (fun x hx => hb x (List.mem_cons_of_mem _ hx)) hlen hmem hnd
      · rw [show lineStep validate valid size rng st pr = reservoirStep size rng st pr from by
          unfold lineStep; rw [if_neg hv]]
        unfold reservoirStep
        by_cases hlt : st.1.length < size
        · rw [if_pos hlt]
          refine ih (st.1 ++ [pr], st.2 + 1) (pr.1 + 1) hpw.of_cons
            (fun x hx => hP x (List.mem_cons_of_mem _ hx)) hrest_gt ?_ ?_ ?_
          · show (st.1 ++ [pr]).length = min size (st.2 + 1)
            simp only [List.length_append, List.length_cons, List.length_nil]
            omega
          · intro x hx
            rcases List.mem_append.mp hx with hx2 | hx2
            · have h1 := hmem x hx2
              exact ⟨h1.1, by omega⟩
            · have hxpr : x = pr := by simpa using hx2
              subst hxpr
              exact ⟨hP x (List.mem_cons_self _ _), by omega⟩
          · show ((st.1 ++ [pr]).map Prod.fst).Nodup
            rw [List.map_append, List.nodup_append]
            refine ⟨hnd, by simp, ?_⟩
            intro a ha hb2
            simp only [List.map_cons, List.map_nil, List.mem_singleton] at hb2
            subst hb2
            obtain ⟨y, hy, hyeq⟩ := List.mem_map.mp ha
            have h1 := (hmem y hy).2
            omega
        · rw [if_neg hlt]
          by_cases hj : rng (st.2 + 1) ≤ size
          · rw [if_pos hj]
            refine ih (st.1.set (rng (st.2 + 1) - 1) pr, st.2 + 1) (pr.1 + 1) hpw.of_cons
              (fun x hx => hP x (List.mem_cons_of_mem _ hx)) hrest_gt ?_ ?_ ?_
            · show (st.1.set (rng (st.2 + 1) - 1) pr).length = min size (st.2 + 1)
              simp only [List.length_set]
              omega
            · intro x hx
              rcases List.mem_or_eq_of_mem_set hx with hx2 | hx2
              · have h1 := hmem x hx2
                exact ⟨h1.1, by omega⟩
              · subst hx2
                exact ⟨hP x (List.mem_cons_self _ _), by omega⟩
            · show ((st.1.set (rng (st.2 + 1) - 1) pr).map Prod.fst).Nodup
              rw [List.map_set]
              refine nodup_set_of_not_mem hnd ?_
              intro hmem2
              obtain ⟨y, hy, hyeq⟩ := List.mem_map.mp hmem2
              have h1 := (hmem y hy).2
              omega
          · rw [if_neg hj]
            refine ih (st.1, st.2 + 1) (pr.1 + 1) hpw.of_cons
              (fun x hx => hP x (List.mem_cons_of_mem _ hx)) hrest_gt ?_ ?_ hnd
            · show st.1.length = min size (st.2 + 1)
              omega
            · intro x hx
              have h1 := hmem x hx
              exact ⟨h1.1, by omega⟩

theorem pairs_map_snd_sublist :
    ∀ (lines : List String) (ps : List (ℕ × String)),
      List.Pairwise (fun a b => a.1 < b.1) ps →
      (∀ pr ∈ ps, lines[pr.1]? = some pr.2) →
      List.Sublist (ps.map Prod.snd) lines := by
  intro lines
  induction lines with
  | nil =>
      intro ps _ hm
      cases ps with
      | nil => simp
      | cons a rest =>
          have := hm a (List.mem_cons_self _ _)
          simp at this
  | cons l tl ih =>
      intro ps hpw hm
      cases ps with
      | nil => simp
      | cons a rest =>
          by_cases ha : a.1 = 0
          · have hal : a.2 = l := by
              have h2 := hm a (List.mem_cons_self _ _)
              rw [ha] at h2
              simp only [List.getElem?_cons_zero, Option.some.injEq] at h2
              exact h2.symm
            have hrest1 : ∀ x ∈ rest, 1 ≤ x.1 := by
              intro x hx
              have := (List.pairwise_cons.mp hpw).1 x hx
              omega
            have hsub : List.Sublist (rest.map Prod.snd) tl := by
              have hih := ih (rest.map (fun pr => (pr.1 - 1, pr.2))) ?_ ?_
              · rw [List.map_map] at hih
                exact hih
              · rw [List.pairwise_map]
                refine List.Pairwise.imp_of_mem ?_ hpw.of_cons
                intro x y hx hy hxy
                have := hrest1 x hx
                omega
              · intro x hx
                obtain ⟨y, hy, rfl⟩ := List.mem_map.mp hx
                have h1 := hrest1 y hy
                have h2 := hm y (List.mem_cons_of_mem _ hy)
                cases hy1 : y.1 with
                | zero => omega
                | succ m =>
                    rw [hy1] at h2
                    simp only [List.getElem?_cons_succ] at h2
                    simpa using h2
            rw [List.map_cons, hal]
            exact List.Sublist.cons₂ l hsub
          · have hall1 : ∀ x ∈ a :: rest, 1 ≤ x.1 := by
              intro x hx
              rcases List.mem_cons.mp hx with rfl | hx2
              · omega
              · have := (List.pairwise_cons.mp hpw).1 x hx2
                omega
            have hsub : List.Sublist ((a :: rest).map Prod.snd) tl := by
              have hih := ih ((a :: rest).map (fun pr => (pr.1 - 1, pr.2))) ?_ ?_
              · rw [List.map_map] at hih
                exact hih
              · rw [List.pairwise_map]
                refine List.Pairwise.imp_of_mem ?_ hpw
                intro x y hx hy hxy
                have := hall1 x hx
                omega
              · intro x hx
                obtain ⟨y, hy, rfl⟩ := List.mem_map.mp hx
                have h1 := hall1 y hy
                have h2 := hm y hy
                cases hy1 : y.1 with
                | zero => omega
                | succ m =>
                    rw [hy1] at h2
                    simp only [List.getElem?_cons_succ] at h2
                    simpa using h2
            exact hsub.cons l

/-! ## Claims -/

/-- Claim C3: in cache-accumulation mode the rotary tables are taken at
the position ids offset by the cache depth at entry (len(cache.keys)
before the append), and the call appends exactly the rotated,
grouped-query-expanded key and value of this step to the cache, so the
earlier entries are unchanged, the key and value lists stay equally long,
and after n steps of a rollout started from the fresh empty cache both
lists have length n. -/
theorem qwen3Attention_cacheMutation (cfg : AttnCfg) (hid : TokMat) (mask : MTen3)
    (pid : ℕ → ℕ) (cache : List Ten3 × List Ten3) (hids : ℕ → TokMat)
    (masks : ℕ → MTen3) (pids : ℕ → ℕ → ℕ) (n : ℕ)
    (hlen : cache.1.length = cache.2.length) :
    (forwardCache cfg hid mask pid cache).1.1
        = cache.1 ++ [repeatKV (kTen cfg hid pid cache.1.length) cfg.G] ∧
    (forwardCache cfg hid mask pid cache).1.2
        = cache.2 ++ [repeatKV (vTen cfg hid) cfg.G] ∧
    (forwardCache cfg hid mask pid cache).1.1.take cache.1.length = cache.1 ∧
    (forwardCache cfg hid mask pid cache).1.2.take cache.2.length = cache.2 ∧
    (forwardCache cfg hid mask pid cache).1.1.length
        = (forwardCache cfg hid mask pid cache).1.2.length ∧
    (rolloutCacheGen cfg hids masks pids n).1.length = n ∧
    (rolloutCacheGen cfg hids masks pids n).2.length = n := by
  have hroll : ∀ m : ℕ, (rolloutCacheGen cfg hids masks pids m).1.length = m ∧
      (rolloutCacheGen cfg hids masks pids m).2.length = m := by
    intro m
    induction m with
    | zero => exact ⟨rfl, rfl⟩
    | succ m ih =>
        refine ⟨?_, ?_⟩ <;>
          simp only [rolloutCacheGen, forwardCache, List.length_append, List.length_cons,
            List.length_nil, ih.1, ih.2]
  refine ⟨rfl, rfl, List.take_left _ _, List.take_left _ _, ?_, (hroll n).1, (hroll n).2⟩
  simp only [forwardCache, List.length_append, List.length_cons, List.length_nil, hlen]

theorem qwen3Attention_cacheMutation_witness :
    (rolloutCacheGen cfg1 (fun _ => tok1) (fun _ => maskOne) (fun _ _ => 0) 2).1.length = 2 :=
  (qwen3Attention_cacheMutation cfg1 tok1 maskOne (fun _ => 0) ([], [])
    (fun _ => tok1) (fun _ => maskOne) (fun _ _ => 0) 2 rfl).2.2.2.2.2.1

/-- Claim C1: a cache-accumulation rollout of N sequential single-token
steps over tokens h 0, …, h (N-1) (each step carrying position id 0, so
the rotary offset supplies the absolute position) produces, at every step
t, exactly row t of one no-cache forward over the N-token sequence with
the equivalent additive causal mask — concatenating the step outputs
therefore equals the no-cache run. -/
theorem cacheRollout_equals_fullRun (cfg : AttnCfg) (h : ℕ → ℕ → ℚ) (N t f : ℕ)
    (hd : 0 < cfg.d) (ht : t < N) :
    (rolloutStepOut cfg h t).isSome = true ∧
    (fullRunOut cfg h N).isSome = true ∧
    (rolloutStepOut cfg h t).map (fun o => o.row 0 f)
      = (fullRunOut cfg h N).map (fun o => o.row t f) := by
  have hro := rolloutCache_eval cfg h t
  have hKm : ∀ k ∈ (List.range t).map (kStepC1 cfg h),
      k.rows = (stepHid h t).len ∧ k.cols = cfg.d := by
    intro k hk
    obtain ⟨m, hm, rfl⟩ := List.mem_map.mp hk
    exact ⟨rfl, rfl⟩
  have hVm : ∀ v ∈ (List.range t).map (vStepC1 cfg h),
      v.rows = (stepHid h t).len ∧ v.cols = cfg.d := by
    intro v hv
    obtain ⟨m, hm, rfl⟩ := List.mem_map.mp hv
    exact ⟨rfl, rfl⟩
  obtain ⟨oS, hoS, hoSlen, hoSrow⟩ :=
    forwardCache_eval cfg (stepHid h t) maskOne (fun _ => 0)
      ((List.range t).map (kStepC1 cfg h), (List.range t).map (vStepC1 cfg h))
      hd rfl rfl hKm hVm (by simp)
  have hstep : rolloutStepOut cfg h t = some oS := by
    unfold rolloutStepOut
    rw [hro]
    exact hoS
  obtain ⟨oF, hoF, hoFlen, hoFrow⟩ :=
    forwardNoCache_eval cfg (fullHid h N) (causalMask N) (fun i => i) hd rfl rfl
  have hfull : fullRunOut cfg h N = some oF := hoF
  refine ⟨by rw [hstep]; rfl, by rw [hfull]; rfl, ?_⟩
  rw [hstep, hfull, Option.map_some', Option.map_some',
    hoSrow 0 f Nat.one_pos, hoFrow t f ht]
  refine congrArg some ?_
  refine congrArg (fun z => cfg.op z f) ?_
  funext g
  have hq_t : ∀ dd, (qTen cfg (stepHid h t) (fun _ => 0) t).entry (g / cfg.d) 0 dd
      = (qTen cfg (fullHid h N) (fun i => i) 0).entry (g / cfg.d) t dd := by
    intro dd
    simp only [qTen, stepHid, fullHid, Nat.zero_add, Nat.add_zero]
  have hk_s : ∀ s dd, (kStepC1 cfg h s).entry (g / cfg.d) 0 dd
      = (repeatKV (kTen cfg (fullHid h N) (fun i => i) 0) cfg.G).entry (g / cfg.d) s dd := by
    intro s dd
    simp only [kStepC1, repeatKV, kTen, stepHid, fullHid, Nat.zero_add, Nat.add_zero]
  have hv_s : ∀ s, (vStepC1 cfg h s).entry (g / cfg.d) 0 (g % cfg.d)
      = (repeatKV (vTen cfg (fullHid h N)) cfg.G).entry (g / cfg.d) s (g % cfg.d) := by
    intro s
    simp only [vStepC1, repeatKV, vTen, stepHid, fullHid]
  have hncl_bot : ∀ x, ¬ x ≤ t →
      expBot cfg.E (nocacheLogit cfg (fullHid h N) (causalMask N) (fun i => i) (g / cfg.d) t x)
        = 0 := by
    intro x hxt
    unfold nocacheLogit
    rw [show (causalMask N).entry (g / cfg.d) t x = (⊥ : WithBot ℚ) from by
      simp only [causalMask]
      rw [if_neg hxt]]
    rw [WithBot.add_bot]
    rfl
  have hlog : ∀ u, u < t + 1 →
      logitEntry cfg (stepHid h t) maskOne (fun _ => 0)
        (List.map (kStepC1 cfg h) (List.range t), List.map (vStepC1 cfg h) (List.range t))
        (g / cfg.d) 0 u
      = nocacheLogit cfg (fullHid h N) (causalMask N) (fun i => i) (g / cfg.d) t u := by
    intro u hu
    unfold logitEntry nocacheLogit
    simp only [List.length_map, List.length_range]
    rw [show List.map (kStepC1 cfg h) (List.range t)
        ++ [repeatKV (kTen cfg (stepHid h t) (fun _ => 0) t) cfg.G]
        = List.map (kStepC1 cfg h) (List.range (t + 1)) from by
      rw [List.range_succ, List.map_append]
      rfl]
    rw [show (causalMask N).entry (g / cfg.d) t u = (0 : WithBot ℚ) from by
      simp only [causalMask]
      rw [if_pos (by omega)]]
    rw [add_zero]
    rw [show (stepHid h t).len = 1 from rfl]
    match u with
    | 0 =>
        rw [if_pos Nat.one_pos]
        rw [show (List.map (kStepC1 cfg h) (List.range (t + 1))).headI = kStepC1 cfg h 0 from by
          rw [List.range_succ_eq_map, List.map_cons, List.headI_cons]]
        rw [show maskOne.entry (g / cfg.d) 0 0 = (0 : WithBot ℚ) from rfl]
        rw [add_zero]
        refine congrArg (fun z => ((z / cfg.sqrtd : ℚ) : WithBot ℚ)) ?_
        exact Finset.sum_congr rfl fun dd _ => by rw [hq_t dd, hk_s 0 dd]
    | Nat.succ m =>
        rw [if_neg (by omega)]
        rw [show m + 1 - 1 + 1 = m + 1 from by omega]
        rw [getD_map_range (kStepC1 cfg h) (t + 1) (m + 1) (by omega) default]
        refine congrArg (fun z => ((z / cfg.sqrtd : ℚ) : WithBot ℚ)) ?_
        exact Finset.sum_congr rfl fun dd _ => by rw [hq_t dd, hk_s (m + 1) dd]
  have hsm : ∀ u, u < t + 1 →
      smEntry cfg (stepHid h t) maskOne (fun _ => 0)
        (List.map (kStepC1 cfg h) (List.range t), List.map (vStepC1 cfg h) (List.range t))
        (g / cfg.d) 0 u
      = expBot cfg.E (nocacheLogit cfg (fullHid h N) (causalMask N) (fun i => i) (g / cfg.d) t u)
        / ∑ c ∈ Finset.range (t + 1),
            expBot cfg.E
              (nocacheLogit cfg (fullHid h N) (causalMask N) (fun i => i) (g / cfg.d) t c) := by
    intro u hu
    unfold smEntry
    rw [hlog u hu]
    congr 1
    rw [show (stepHid h t).len = 1 from rfl]
    simp only [List.length_map, List.length_range]
    rw [Nat.add_comm 1 t]
    exact Finset.sum_congr rfl fun c hc => by rw [hlog c (Finset.mem_range.mp hc)]
  rw [show (fullHid h N).len = N from rfl]
  rw [show (stepHid h t).len = 1 from rfl]
  simp only [List.length_map, List.length_range]
  rw [Finset.sum_range_one]
  rw [show List.map (vStepC1 cfg h) (List.range t)
      ++ [repeatKV (vTen cfg (stepHid h t)) cfg.G]
      = List.map (vStepC1 cfg h) (List.range (t + 1)) from by
    rw [List.range_succ, List.map_append]
    rfl]
  rw [show (List.map (vStepC1 cfg h) (List.range (t + 1))).headI = vStepC1 cfg h 0 from by
    rw [List.range_succ_eq_map, List.map_cons, List.headI_cons]]
  have hden : (∑ u ∈ Finset.range N,
        expBot cfg.E (nocacheLogit cfg (fullHid h N) (causalMask N) (fun i => i) (g / cfg.d) t u))
      = ∑ u ∈ Finset.range (t + 1),
        expBot cfg.E (nocacheLogit cfg (fullHid h N) (causalMask N) (fun i => i) (g / cfg.d) t u)
      := by
    symm
    apply Finset.sum_subset
    · intro x hx
      simp only [Finset.mem_range] at hx ⊢
      omega
    · intro x _ hxn
      exact hncl_bot x (by simp only [Finset.mem_range] at hxn; omega)
  rw [hden]
  have houter : (∑ s ∈ Finset.range N,
        (expBot cfg.E (nocacheLogit cfg (fullHid h N) (causalMask N) (fun i => i) (g / cfg.d) t s)
          / ∑ u ∈ Finset.range (t + 1),
              expBot cfg.E
                (nocacheLogit cfg (fullHid h N) (causalMask N) (fun i => i) (g / cfg.d) t u))
          * (repeatKV (vTen cfg (fullHid h N)) cfg.G).entry (g / cfg.d) s (g % cfg.d))
      = ∑ s ∈ Finset.range (t + 1),
        (expBot cfg.E (nocacheLogit cfg (fullHid h N) (causalMask N) (fun i => i) (g / cfg.d) t s)
          / ∑ u ∈ Finset.range (t + 1),
              expBot cfg.E
                (nocacheLogit cfg (fullHid h N) (causalMask N) (fun i => i) (g / cfg.d) t u))
          * (repeatKV (vTen cfg (fullHid h N)) cfg.G).entry (g / cfg.d) s (g % cfg.d) := by
    symm
    apply Finset.sum_subset
    · intro x hx
      simp only [Finset.mem_range] at hx ⊢
      omega
    · intro x _ hxn
      rw [hncl_bot x (by simp only [Finset.mem_range] at hxn; omega), zero_div, zero_mul]
  rw [houter]
  rw [Finset.sum_range_succ']
  have hT0 : smEntry cfg (stepHid h t) maskOne (fun _ => 0)
      (List.map (kStepC1 cfg h) (List.range t), List.map (vStepC1 cfg h) (List.range t))
      (g / cfg.d) 0 0 * (vStepC1 cfg h 0).entry (g / cfg.d) 0 (g % cfg.d)
      = (expBot cfg.E (nocacheLogit cfg (fullHid h N) (causalMask N) (fun i => i) (g / cfg.d) t 0)
          / ∑ u ∈ Finset.range (t + 1),
              expBot cfg.E
                (nocacheLogit cfg (fullHid h N) (causalMask N) (fun i => i) (g / cfg.d) t u))
          * (repeatKV (vTen cfg (fullHid h N)) cfg.G).entry (g / cfg.d) 0 (g % cfg.d) := by
    rw [hsm 0 (by omega), hv_s 0]
  have hS : (∑ m ∈ Finset.range t,
        smEntry cfg (stepHid h t) maskOne (fun _ => 0)
          (List.map (kStepC1 cfg h) (List.range t), List.map (vStepC1 cfg h) (List.range t))
          (g / cfg.d) 0 (1 + m)
          * ((List.map (vStepC1 cfg h) (List.range (t + 1))).getD (m + 1) default).entry
              (g / cfg.d) 0 (g % cfg.d))
      = ∑ m ∈ Finset.range t,
        (expBot cfg.E
            (nocacheLogit cfg (fullHid h N) (causalMask N) (fun i => i) (g / cfg.d) t (m + 1))
          / ∑ u ∈ Finset.range (t + 1),
              expBot cfg.E
                (nocacheLogit cfg (fullHid h N) (causalMask N) (fun i => i) (g / cfg.d) t u))
          * (repeatKV (vTen cfg (fullHid h N)) cfg.G).entry (g / cfg.d) (m + 1) (g % cfg.d) := by
    refine Finset.sum_congr rfl fun m hm => ?_
    have hmt := Finset.mem_range.mp hm
    rw [show 1 + m = m + 1 from by omega]
    rw [hsm (m + 1) (by omega)]
    rw [getD_map_range (vStepC1 cfg h) (t + 1) (m + 1) (by omega) default]
    rw [hv_s (m + 1)]
  rw [hT0, hS]
  exact add_comm _ _

theorem cacheRollout_equals_fullRun_witness :
    (rolloutStepOut cfg1 (fun _ _ => 1) 1).isSome = true ∧
    (fullRunOut cfg1 (fun _ _ => 1) 2).isSome = true ∧
    (rolloutStepOut cfg1 (fun _ _ => 1) 1).map (fun o => o.row 0 0)
      = (fullRunOut cfg1 (fun _ _ => 1) 2).map (fun o => o.row 1 0) :=
  cacheRollout_equals_fullRun cfg1 (fun _ _ => 1) 2 1 0 (by decide) (by decide)

/-- Claim C2: in cache-accumulation mode with cache depth L after
appending and well-shaped entries, Qwen3Attention.forward computes the
step-0 weights as query times key-0 transposed scaled by 1/sqrt(head_dim)
plus the additive mask, one per-query-position scalar weight per cached
step i ≥ 1 (the q·kᵢ dot product over head_dim at the same scale),
concatenates them along the last axis, applies exactly one softmax over
the concatenation (the float32 elevation and cast back are the identity in
this rational idealization), and assembles the output as the first q_len
softmax weights matmul value-0 plus the broadcast scalar-weighted later
values — i.e. forward agrees with `specCacheAttn`, the direct transcription
of the specification's description. -/
theorem cacheMode_weightAssembly (cfg : AttnCfg) (hid : TokMat) (mask : MTen3)
    (pid : ℕ → ℕ) (cache : List Ten3 × List Ten3) (i f : ℕ)
    (hd : 0 < cfg.d) (hi : i < hid.len)
    (hm1 : mask.rows = hid.len) (hm2 : mask.cols = hid.len)
    (hK : ∀ k ∈ cache.1, k.rows = hid.len ∧ k.cols = cfg.d)
    (hV : ∀ v ∈ cache.2, v.rows = hid.len ∧ v.cols = cfg.d)
    (hlen : cache.1.length = cache.2.length) :
    ((forwardCache cfg hid mask pid cache).2).isSome = true ∧
    ((forwardCache cfg hid mask pid cache).2).map (fun o => (o.len, o.row i f))
      = some (hid.len, (specCacheAttn cfg hid mask pid cache).row i f) := by
  obtain ⟨o, hfo, holen, horow⟩ := forwardCache_eval cfg hid mask pid cache hd hm1 hm2 hK hV hlen
  refine ⟨by rw [hfo]; rfl, ?_⟩
  rw [hfo, Option.map_some', holen, horow i f hi]
  refine congrArg some (congrArg (Prod.mk hid.len) ?_)
  simp only [specCacheAttn, reshapeOut, softmaxT, smEntry, logitEntry]
  simp only [List.length_append, List.length_cons, List.length_nil, Nat.add_sub_cancel]

theorem cacheMode_weightAssembly_witness :
    ((forwardCache cfg1 tok1 maskOne (fun _ => 0) ([], [])).2).isSome = true ∧
    ((forwardCache cfg1 tok1 maskOne (fun _ => 0) ([], [])).2).map (fun o => (o.len, o.row 0 0))
      = some (1, (specCacheAttn cfg1 tok1 maskOne (fun _ => 0) ([], [])).row 0 0) :=
  cacheMode_weightAssembly cfg1 tok1 maskOne (fun _ => 0) ([], []) 0 0 (by decide) (by decide)
    rfl rfl (by simp) (by simp) rfl

/-- Claim C5: a cache-accumulation call whose query sequence length
differs from the sequence length of the step-0 entries already in the
cache fails with a shape error before producing an output: whichever way
the torch broadcasts let the intermediate ops through, the final
weights-times-value-0 matmul (or an earlier op) rejects the shapes, so the
output is none. -/
theorem cacheMode_queryLength_mismatch_fails (cfg : AttnCfg) (hid : TokMat)
    (mask : MTen3) (pid : ℕ → ℕ) (cache : List Ten3 × List Ten3)
    (hk : cache.1 ≠ []) (hv : cache.2 ≠ [])
    (hq : 1 ≤ hid.len)
    (hm1 : mask.rows = hid.len) (hm2 : mask.cols = hid.len)
    (hvk : cache.2.headI.rows = cache.1.headI.rows)
    (hs0 : cache.1.headI.rows ≠ hid.len) :
    (forwardCache cfg hid mask pid cache).2 = none := by
  rcases cache with ⟨K, V⟩
  rcases K with _ | ⟨a, ck⟩
  · exact absurd rfl hk
  rcases V with _ | ⟨b, cv⟩
  · exact absurd rfl hv
  simp only [List.headI_cons] at hvk hs0
  by_contra hcon
  obtain ⟨r, hr⟩ := Option.ne_none_iff_exists'.mp hcon
  simp only [forwardCache, List.cons_append, Option.bind_eq_bind, Option.bind_eq_some,
    Option.pure_def, Option.some.injEq] at hr
  obtain ⟨w, hw, o, ho, _⟩ := hr
  simp only [cacheAttnWeights, List.headI_cons, List.tail_cons, Option.bind_eq_bind,
    Option.bind_eq_some] at hw
  obtain ⟨w0, hw0, wm, hwm, hacc⟩ := hw
  unfold matmulT at hw0
  split_ifs at hw0 with hcols
  simp only [Option.some.injEq] at hw0
  subst hw0
  unfold addBM at hwm
  split_ifs at hwm with hok
  simp only [Option.some.injEq] at hwm
  subst hwm
  obtain ⟨hwr, hwc⟩ := accWeights_some_shape _ _ _ _ _ hacc
  simp only [cacheAttnOut, List.headI_cons, List.tail_cons, Option.bind_eq_bind,
    Option.bind_eq_some] at ho
  obtain ⟨o0, ho0, _⟩ := ho
  unfold matmulStd at ho0
  split_ifs at ho0 with hinner
  have hq0 : (qTen cfg hid pid (a :: ck).length).rows = hid.len := rfl
  have hslice : (sliceCols (softmaxT cfg.E w) hid.len).cols = min w.cols hid.len := rfl
  rw [hslice] at hinner
  have hokc : a.rows = hid.len ∨ a.rows = 1 ∨ hid.len = 1 := by
    have := hok.2
    simpa only [bok, hm2, hq0] using this
  have hwc2 : w.cols = bdim a.rows hid.len + (ck.length + 1) := by
    rw [hwc]
    simp [List.length_append, hm2, hq0]
  rw [hwc2, hvk] at hinner
  unfold bdim at hinner
  by_cases ha1 : a.rows = 1
  · rw [if_pos ha1] at hinner
    omega
  · rw [if_neg ha1] at hinner
    omega

theorem cacheMode_queryLength_mismatch_fails_witness :
    (forwardCache cfg1 ⟨2, fun _ _ => 0⟩ ⟨2, 2, fun _ _ _ => (0 : WithBot ℚ)⟩
      (fun _ => 0) ([⟨1, 1, fun _ _ _ => 0⟩], [⟨1, 1, fun _ _ _ => 0⟩])).2 = none :=
  cacheMode_queryLength_mismatch_fails cfg1 ⟨2, fun _ _ => 0⟩
    ⟨2, 2, fun _ _ _ => (0 : WithBot ℚ)⟩ (fun _ => 0)
    ([⟨1, 1, fun _ _ _ => 0⟩], [⟨1, 1, fun _ _ _ => 0⟩])
    (by simp) (by simp) (by decide) rfl rfl rfl (by decide)

/-- Claim C4: Qwen3FlexAttention.forward with a paged cache takes rotary
offset lck = prior sequence length / query length, writes the new
key/value slice through Cache.update (which returns the full accumulated
tensors and grows the stored length by q_len), and builds the block mask
from the mask-row sums minus lck, the query length, the full key/value
length, and a left shift equal to lck, finally running the (threshold
chosen) flex kernel on the full tensors. -/
theorem qwen3FlexAttention_forward_spec {BM : Type} (cfg : AttnCfg)
    (genMask : ℤ → ℕ → ℕ → ℕ → (ℕ → ℕ → Bool))
    (cbmA cbmB : (ℕ → ℕ → Bool) → ℕ → ℕ → ℕ → ℕ → BM)
    (fxA fxB : Ten3 → Ten3 → Ten3 → BM → Ten3)
    (hid : TokMat) (amask : ℕ → ℕ) (amaskLen : ℕ) (pid : ℕ → ℕ)
    (cache : PagedCache) (hq : 0 < hid.len) :
    forwardFlex cfg genMask cbmA cbmB fxA fxB hid amask amaskLen pid cache
      = ((pagedUpdate cache
            (kTen cfg hid pid (pagedSeqLength cache / hid.len)) (vTen cfg hid)).1,
         reshapeOut cfg hid.len
           ((if hid.len ≤ 128 then fxA else fxB)
             (qTen cfg hid pid (pagedSeqLength cache / hid.len))
             (catRows cache.keyCache (kTen cfg hid pid (pagedSeqLength cache / hid.len)))
             (catRows cache.valueCache (vTen cfg hid))
             ((if hid.len ≤ 128 then cbmA else cbmB)
               (genMask
                 ((↑(∑ j ∈ Finset.range amaskLen, amask j) : ℤ)
                    - (↑(pagedSeqLength cache / hid.len) : ℤ))
                 hid.len (pagedSeqLength cache + hid.len)
                 (pagedSeqLength cache / hid.len))
               1 1 hid.len (pagedSeqLength cache + hid.len)))) := rfl

theorem qwen3FlexAttention_forward_spec_witness :
    (@forwardFlex Unit cfg1 (fun _ _ _ _ _ _ => true) (fun _ _ _ _ _ => ())
      (fun _ _ _ _ _ => ()) (fun _ _ v _ => v) (fun _ _ v _ => v)
      tok1 (fun _ => 1) 1 (fun _ => 0) ⟨default, default⟩).1.keyCache.rows = 1 := by
  have h := @qwen3FlexAttention_forward_spec Unit cfg1
    (fun _ _ _ _ _ _ => true) (fun _ _ _ _ _ => ()) (fun _ _ _ _ _ => ())
    (fun _ _ v _ => v) (fun _ _ v _ => v) tok1 (fun _ => 1) 1 (fun _ => 0)
    ⟨default, default⟩ (by decide)
  rw [h]
  rfl

/-- Claim C6: Qwen3DecoderLayer construction resolves the attention
backend name synchronously: "sdpa" selects the standard attention,
"flex_attention" selects the block-sparse attention, and any other string
makes construction itself fail (so the failure cannot be deferred to a
forward call: no layer value exists). -/
theorem decoderLayer_backend_selection (s : String)
    (hs : s ≠ "sdpa") (hf : s ≠ "flex_attention") :
    mkDecoderLayer "sdpa" = Except.ok ⟨Backend.standard⟩ ∧
    mkDecoderLayer "flex_attention" = Except.ok ⟨Backend.blockSparse⟩ ∧
    mkDecoderLayer s = Except.error ("Unknown attention backend " ++ s) := by
  refine ⟨rfl, by simp [mkDecoderLayer], ?_⟩
  simp [mkDecoderLayer, hs, hf]

theorem decoderLayer_backend_selection_witness :
    mkDecoderLayer "sdpa" = Except.ok ⟨Backend.standard⟩ ∧
    mkDecoderLayer "flex_attention" = Except.ok ⟨Backend.blockSparse⟩ ∧
    mkDecoderLayer "eager" = Except.error ("Unknown attention backend " ++ "eager") :=
  decoderLayer_backend_selection "eager" (by decide) (by decide)

/-- Claim C7: for ttt_length ≥ 1 (the forward-input contract), the
cache_hidden passed to the decoder layer is null exactly when
ttt_length = 1 and is the freshly constructed empty pair of lists exactly
when ttt_length > 1. -/
theorem eagleCacheHidden_spec (ttt : ℕ) (h1 : 1 ≤ ttt) :
    (eagleCacheHidden ttt = none ↔ ttt = 1) ∧
    (eagleCacheHidden ttt = some ([], []) ↔ 1 < ttt) := by
  unfold eagleCacheHidden
  constructor
  · split_ifs with h <;> simp [h]
  · split_ifs with h <;> simp [h] <;> omega

theorem eagleCacheHidden_spec_witness :
    (eagleCacheHidden 3 = none ↔ (3 : ℕ) = 1) ∧
    (eagleCacheHidden 3 = some ([], []) ↔ 1 < 3) :=
  eagleCacheHidden_spec 3 (by decide)

/-- Claim C8 counterexample: a rotary table the encoder can produce
refutes the round-trip claim as stated.  Take head_dim = 2 (half = 1),
position such that the frequency angle is 0 (cos = 1, sin = 0 — the
position-0 row of every table), and a scaling config whose
attention-scaling constant is A = 2 (the spec's §4.1 table is cos/sin
times an arbitrary attention-scaling constant; e.g. a yarn-type
rope_scaling with attention_factor 2).  The unit-circle side condition
holds, yet rotate-then-inverse maps x = 1 to 4 ≠ 1 — far beyond floating
tolerance. -/
theorem rotary_roundTrip_counterexample :
    ((1 : ℚ) ^ 2 + (0 : ℚ) ^ 2 = 1) ∧ (0 : ℕ) < 2 * 1 ∧
    rotThenInv 2 1 (fun _ => (1 : ℚ)) (fun _ => (0 : ℚ)) (fun _ => (1 : ℚ)) 0 = 4 := by
  refine ⟨by norm_num, by norm_num, ?_⟩
  simp [rotThenInv, applyRot, rotateHalf, ropeCosTable, ropeSinTable]
  norm_num

/-- Claim C8 (amended): applying the rotation and then the rotation with
sin negated scales x by the square of the attention-scaling constant A;
in particular the round trip recovers x exactly when A = 1 (as for the
default rope type), which is the most the code guarantees. -/
theorem rotary_rotThenInv_scaling (A : ℚ) (half : ℕ) (c s x : ℕ → ℚ)
    (hunit : ∀ j, c j ^ 2 + s j ^ 2 = 1) (j : ℕ) (hj : j < 2 * half) :
    rotThenInv A half c s x j = A ^ 2 * x j := by
  have hdiv : 2 * half / 2 = half := by omega
  simp only [rotThenInv, applyRot, rotateHalf, ropeCosTable, ropeSinTable, hdiv]
  have hsub : 2 * half - half = half := by omega
  simp only [hsub]
  by_cases hc : j < half
  · have h2 : ¬ half + j < half := by omega
    simp only [if_pos hc, if_neg h2, Nat.add_sub_cancel_left]
    linear_combination (A ^ 2 * x j) * hunit j
  · have h2 : j - half < half := by omega
    have h5 : half + (j - half) = j := by omega
    simp only [if_neg hc, if_pos h2, h5]
    linear_combination (A ^ 2 * x j) * hunit (j - half)

theorem rotary_rotThenInv_scaling_witness :
    rotThenInv 3 1 (fun _ => (0 : ℚ)) (fun _ => (1 : ℚ)) (fun j => (j : ℚ) + 1) 0
      = 3 ^ 2 * ((0 : ℚ) + 1) :=
  rotary_rotThenInv_scaling 3 1 (fun _ => 0) (fun _ => 1) (fun j => (j : ℚ) + 1)
    (fun _ => by norm_num) 0 (by decide)

/-- Claim C10: project_hidden_states asserts against hidden_size * 3, so
it fails exactly when the input width differs from 3·hidden_size; with a
target_hidden_size t different from hidden_size the fusion layer fc was
built to accept width 3·t, yet project_hidden_states rejects that very
width with its assertion. -/
theorem projectHiddenStates_widthCheck (c : EagleCfg) (w t : ℕ)
    (ht : c.targetHiddenSize = some t) (hne : t ≠ c.hiddenSize) :
    (projectHiddenStates c w = Except.error ProjErr.assertFailed ↔ w ≠ c.hiddenSize * 3) ∧
    fcAccepts c (t * 3) = true ∧
    projectHiddenStates c (t * 3) = Except.error ProjErr.assertFailed := by
  have hfc : fcInFeatures c = t * 3 := by simp [fcInFeatures, ht]
  have hts : t * 3 ≠ c.hiddenSize * 3 := by
    intro hcontra
    exact hne (Nat.eq_of_mul_eq_mul_right (by norm_num) hcontra)
  refine ⟨?_, ?_, ?_⟩
  · unfold projectHiddenStates
    split_ifs with h1 h2 <;> simp [h1]
  · simp [fcAccepts, hfc]
  · unfold projectHiddenStates
    rw [if_neg hts]

theorem projectHiddenStates_widthCheck_witness :
    (projectHiddenStates ⟨4, some 5⟩ 12 = Except.error ProjErr.assertFailed ↔ 12 ≠ 4 * 3) ∧
    fcAccepts ⟨4, some 5⟩ (5 * 3) = true ∧
    projectHiddenStates ⟨4, some 5⟩ (5 * 3) = Except.error ProjErr.assertFailed :=
  projectHiddenStates_widthCheck ⟨4, some 5⟩ 12 5 rfl (by decide)

/-- Claim C9: sample_fixed_size makes a single pass (structurally: the
embedding is one fold over the enumerated lines), writes exactly
min(size, number of valid lines) lines, the written lines form a sublist
of the input (each written line is verbatim an input line and the written
lines keep the input file's relative order), the returned counters are the
total and valid line counts, and the output is a pure function of the
seed-determined draw stream — two runs whose streams agree (same input and
seed) produce byte-identical output. -/
theorem sampleFixedSize_spec (lines : List String) (size : ℕ) (validate : Bool)
    (valid : String → Bool) (rng rng2 : ℕ → ℕ) (hrng : ∀ v, rng v = rng2 v) :
    (sampleFixedSize lines size validate valid rng).1.length
      = min size (lines.countP (fun l => !validate || valid l)) ∧
    List.Sublist (sampleFixedSize lines size validate valid rng).1 lines ∧
    (sampleFixedSize lines size validate valid rng).2.1 = lines.length ∧
    (sampleFixedSize lines size validate valid rng).2.2
      = lines.countP (fun l => !validate || valid l) ∧
    sampleFixedSize lines size validate valid rng
      = sampleFixedSize lines size validate valid rng2 := by
  have hPW : List.Pairwise (fun a c : ℕ × String => a.1 < c.1) (enumLines lines) := by
    unfold enumLines
    rw [List.pairwise_map]
    have h2 := List.pairwise_lt_range lines.length
    rw [← List.enum_map_fst lines] at h2
    have h3 := List.pairwise_map.mp h2
    exact h3.imp (by intro a b hab; omega)
  obtain ⟨hL, hM, hND⟩ := foldl_lineStep_inv validate valid size rng (enumLines lines)
    (enumLines lines) ([], 0) 0 hPW (fun pr hpr => hpr) (fun pr _ => Nat.zero_le _)
    (by simp) (by simp) (by simp)
  have hcount : ((enumLines lines).foldl (lineStep validate valid size rng) ([], 0)).2
      = lines.countP (fun l => !validate || valid l) := by
    rw [foldl_lineStep_snd]
    show 0 + (enumLines lines).countP (fun pr => !validate || valid pr.2) = _
    rw [Nat.zero_add]
    unfold enumLines
    rw [List.countP_map]
    conv_rhs => rw [← List.enum_map_snd lines]
    rw [List.countP_map]
    rfl
  have hperm := List.mergeSort_perm
    ((enumLines lines).foldl (lineStep validate valid size rng) ([], 0)).1
    (fun a b => a.1 ≤ b.1)
  have hsortmem : ∀ pr ∈ (((enumLines lines).foldl (lineStep validate valid size rng)
      ([], 0)).1.mergeSort (fun a b => a.1 ≤ b.1)), pr ∈ enumLines lines :=
    fun pr hpr => hM pr ((List.Perm.mem_iff hperm).mp hpr)
  have hsortnd : (((((enumLines lines).foldl (lineStep validate valid size rng)
      ([], 0)).1.mergeSort (fun a b => a.1 ≤ b.1)).map Prod.fst)).Nodup :=
    (List.Perm.nodup_iff (List.Perm.map Prod.fst hperm)).mpr hND
  have htrans : ∀ a b c : ℕ × String,
      (fun a b : ℕ × String => decide (a.1 ≤ b.1)) a b →
      (fun a b : ℕ × String => decide (a.1 ≤ b.1)) b c →
      (fun a b : ℕ × String => decide (a.1 ≤ b.1)) a c := by
    intro a b c h1 h2
    simp only [decide_eq_true_eq] at h1 h2 ⊢
    omega
  have htotal : ∀ a b : ℕ × String,
      ((fun a b : ℕ × String => decide (a.1 ≤ b.1)) a b
        || (fun a b : ℕ × String => decide (a.1 ≤ b.1)) b a) = true := by
    intro a b
    by_cases hab : a.1 ≤ b.1
    · simp [hab]
    · have hba : b.1 ≤ a.1 := by omega
      simp [hba]
  have hsortle := @List.sorted_mergeSort (ℕ × String)
    (fun a b : ℕ × String => decide (a.1 ≤ b.1)) htrans htotal
    ((enumLines lines).foldl (lineStep validate valid size rng) ([], 0)).1
  have hstrict : List.Pairwise (fun a b : ℕ × String => a.1 < b.1)
      (((enumLines lines).foldl (lineStep validate valid size rng)
        ([], 0)).1.mergeSort (fun a b => a.1 ≤ b.1)) := by
    have hne : List.Pairwise (fun a b : ℕ × String => a.1 ≠ b.1)
        (((enumLines lines).foldl (lineStep validate valid size rng)
          ([], 0)).1.mergeSort (fun a b => a.1 ≤ b.1)) :=
      List.pairwise_map.mp hsortnd
    have hle : List.Pairwise (fun a b : ℕ × String => a.1 ≤ b.1)
        (((enumLines lines).foldl (lineStep validate valid size rng)
          ([], 0)).1.mergeSort (fun a b => a.1 ≤ b.1)) :=
      hsortle.imp (by intro a b hab; exact of_decide_eq_true hab)
    exact (hle.and hne).imp (by intro a b hab; omega)
  have hget : ∀ pr ∈ (((enumLines lines).foldl (lineStep validate valid size rng)
      ([], 0)).1.mergeSort (fun a b => a.1 ≤ b.1)),
      lines[pr.1 - 1]? = some pr.2 ∧ 1 ≤ pr.1 := by
    intro pr hpr
    have h1 := hsortmem pr hpr
    unfold enumLines at h1
    obtain ⟨q, hq, rfl⟩ := List.mem_map.mp h1
    have h2 := List.mem_enum_iff_getElem?.mp hq
    constructor
    · simpa using h2
    · omega
  have hsub : List.Sublist ((((enumLines lines).foldl (lineStep validate valid size rng)
      ([], 0)).1.mergeSort (fun a b => a.1 ≤ b.1)).map Prod.snd) lines := by
    have hfinal := pairs_map_snd_sublist lines
      ((((enumLines lines).foldl (lineStep validate valid size rng)
        ([], 0)).1.mergeSort (fun a b => a.1 ≤ b.1)).map (fun pr => (pr.1 - 1, pr.2)))
      ?_ ?_
    · rw [List.map_map] at hfinal
      exact hfinal
    · rw [List.pairwise_map]
      refine List.Pairwise.imp_of_mem ?_ hstrict
      intro x y hx hy hxy
      have := (hget x hx).2
      omega
    · intro x hx
      obtain ⟨y, hy, rfl⟩ := List.mem_map.mp hx
      exact (hget y hy).1
  refine ⟨?_, hsub, rfl, hcount, ?_⟩
  · show ((((enumLines lines).foldl (lineStep validate valid size rng)
      ([], 0)).1.mergeSort (fun a b => a.1 ≤ b.1)).map Prod.snd).length = _
    rw [List.length_map, List.length_mergeSort, hL, hcount]
  · have hcong : lineStep validate valid size rng = lineStep validate valid size rng2 := by
      funext st pr
      unfold lineStep reservoirStep
      simp only [hrng]
    unfold sampleFixedSize
    rw [hcong]

theorem sampleFixedSize_spec_witness :
    (sampleFixedSize ["a", "b", "c"] 2 false (fun _ => true) (fun v => v)).1.length
      = min 2 (["a", "b", "c"].countP (fun l => !false || (fun _ => true) l)) ∧
    List.Sublist (sampleFixedSize ["a", "b", "c"] 2 false (fun _ => true)
      (fun v => v)).1 ["a", "b", "c"] ∧
    (sampleFixedSize ["a", "b", "c"] 2 false (fun _ => true)
      (fun v => v)).2.1 = (["a", "b", "c"] : List String).length ∧
    (sampleFixedSize ["a", "b", "c"] 2 false (fun _ => true)
      (fun v => v)).2.2 = ["a", "b", "c"].countP (fun l => !false || (fun _ => true) l) ∧
    sampleFixedSize ["a", "b", "c"] 2 false (fun _ => true) (fun v => v)
      = sampleFixedSize ["a", "b", "c"] 2 false (fun _ => true) (fun v => v) :=
  sampleFixedSize_spec ["a", "b", "c"] 2 false (fun _ => true) (fun v => v) (fun v => v)
    (fun _ => rfl)

end SpecForge
